import Mathlib

/-!
# Verification development for `zhevron/go-semver`

A shallow embedding of `semver/version.go` and `semver/constraint.go`.

Modelling conventions
* A Go `string` is modelled as the list of its Unicode code points (`Str`).
  All separator characters the code searches for are ASCII, and Go's string
  ordering (bytewise on UTF-8) coincides with code-point-wise lexicographic
  ordering, so indices and comparisons agree with the byte-level ones.
* `int64` / `int` values are modelled as `Int`; the only place where the
  64-bit range matters is `strconv.ParseInt` / `strconv.Atoi`, which check it
  explicitly.
* `(*Version, error)` results are modelled by `Except Error Version`: the
  error case carries no version (the `nil` pointer of the source).
-/

namespace Semver

/-- Go strings, as sequences of code points. -/
abbrev Str := List Char

/-- The two error values of the package. -/
inductive Error where
  | ErrInvalidFormat
  | ErrInvalidOperator
deriving DecidableEq, Repr

/-- Go `type Version struct` of `version.go`. -/
structure Version where
  Major : Int
  Minor : Int
  Patch : Int
  PreRelease : List Str
  Metadata : List Str
deriving DecidableEq, Repr

/-- Go `type Constraint struct` of `constraint.go`. -/
structure Constraint where
  Operator : Str
  Version : Version
deriving DecidableEq, Repr

deriving instance DecidableEq for Except

/-! ## Standard-library functions used by the package -/

/-- Go `strings.IndexRune(s, ch)`: position of the first occurrence of `ch`,
`none` standing for `-1`. -/
def IndexRune : Str → Char → Option Nat
  | [], _ => none
  | c :: cs, ch => if c = ch then some 0 else (IndexRune cs ch).map (· + 1)

/-- The loop of `strings.genSplit`: at most `n` further cuts at `sep`, the
last piece being the unsplit remainder. -/
def genSplit (s : Str) (sep : Char) : Nat → List Str
  | 0 => [s]
  | n + 1 =>
    match IndexRune s sep with
    | none => [s]
    | some m => s.take m :: genSplit (s.drop (m + 1)) sep n

/-- Go `strings.SplitN(s, sep, n)` for a one-character separator and `n ≥ 0`. -/
def SplitN (s : Str) (sep : Char) (n : Nat) : List Str :=
  if n = 0 then [] else genSplit s sep (n - 1)

/-- Go `strings.Split(s, sep)` for a one-character separator: as many cuts as
there are separators. -/
def Split (s : Str) (sep : Char) : List Str :=
  genSplit s sep (s.count sep)

/-- Go `strings.Join(elems, sep)`. -/
def Join : List Str → Str → Str
  | [], _ => []
  | [a], _ => a
  | a :: b :: rest, sep => a ++ sep ++ Join (b :: rest) sep

/-- The digit loop of `strconv.ParseUint(s, 10, 64)`: every character must be
a decimal digit and the accumulated value must stay below `2^64`. -/
def parseDigits : Str → Nat → Option Nat
  | [], n => some n
  | c :: cs, n =>
    if c.isDigit then
      let n1 := n * 10 + (c.toNat - 48)
      if n1 < 2 ^ 64 then parseDigits cs n1 else none
    else none

/-- Go `strconv.ParseUint(s, 10, 64)`, `none` standing for any error. -/
def ParseUint (s : Str) : Option Nat :=
  if s = [] then none else parseDigits s 0

/-- The range check and sign application at the end of `strconv.ParseInt`. -/
def applySign (neg : Bool) (un : Nat) : Option Int :=
  if !neg && un ≥ 2 ^ 63 then none
  else if neg && un > 2 ^ 63 then none
  else if neg then some (-(un : Int)) else some (un : Int)

/-- Go `strconv.ParseInt(s, 10, 64)`, `none` standing for any error: an optional
sign, then `ParseUint`, then the signed range check. -/
def ParseInt (s : Str) : Option Int :=
  match s with
  | [] => none
  | c :: cs =>
    if c = '+' then (ParseUint cs).bind (applySign false)
    else if c = '-' then (ParseUint cs).bind (applySign true)
    else (ParseUint (c :: cs)).bind (applySign false)

/-- Go `strconv.Atoi(s)` on a platform whose `int` has 64 bits. -/
def Atoi (s : Str) : Option Int := ParseInt s

/-- The `%d` verb of `fmt.Sprintf` on an `int64`. -/
def formatInt (i : Int) : Str :=
  if i < 0 then '-' :: Nat.toDigits 10 i.natAbs else Nat.toDigits 10 i.toNat

/-- Go's `<` on strings: lexicographic, a proper initial segment being
smaller. -/
def strLess : Str → Str → Bool
  | [], [] => false
  | [], _ :: _ => true
  | _ :: _, [] => false
  | a :: as, b :: bs => if a < b then true else if b < a then false else strLess as bs

/-! ## `version.go` -/

/-- Go `NewVersion`: the version `0.1.0` with empty pre-release and metadata. -/
def NewVersion : Version :=
  { Major := 0, Minor := 1, Patch := 0, PreRelease := [], Metadata := [] }

/-- Go `hasLeadingZero`. -/
def hasLeadingZero (str : Str) : Bool :=
  decide (str.length > 1) && decide (str.head? = some '0')

/-- The character set of `isAlphaNumeric`. -/
def alphaNumericChars : Str :=
  "abcdefghijklmnopqrstuvwxyzABCDEFGHIJKLMNOPQRSTUVWXYZ-1234567890".toList

/-- Go `isAlphaNumeric`. -/
def isAlphaNumeric (str : Str) : Bool :=
  str.all (fun ch => alphaNumericChars.contains ch)

/-- Go `stripAfter(&str, ch)`: the first component is the returned text, the
second the new value of `*str`. -/
def stripAfter (str : Str) (ch : Char) : Str × Str :=
  match IndexRune str ch with
  | some i => (str.drop (i + 1), str.take i)
  | none => ([], str)

/-- The loop of `ParseVersion` over the three numeric segments. -/
def parseSegments : List Str → Except Error (List Int)
  | [] => .ok []
  | s :: rest =>
    if hasLeadingZero s then .error Error.ErrInvalidFormat
    else
      match ParseInt s with
      | none => .error Error.ErrInvalidFormat
      | some v =>
        match parseSegments rest with
        | .error e => .error e
        | .ok vs => .ok (v :: vs)

/-- Go `ParseVersion`. -/
def ParseVersion (str : Str) : Except Error Version :=
  match SplitN str '.' 3 with
  | [s0, s1, s2] =>
    let r1 := stripAfter s2 '+'
    let Metadata := Split r1.1 '.'
    let r2 := stripAfter r1.2 '-'
    let PreRelease := Split r2.1 '.'
    match parseSegments [s0, s1, r2.2] with
    | .ok [n0, n1, n2] =>
      .ok { Major := n0, Minor := n1, Patch := n2,
            PreRelease := PreRelease, Metadata := Metadata }
    | _ => .error Error.ErrInvalidFormat
  | _ => .error Error.ErrInvalidFormat

/-- The loop of `Compare` over `v1` and `v2`; `none` when it falls through. -/
def compareLoop : List Int → List Int → Option Int
  | x :: xs, y :: ys =>
    if x ≠ y then (if x > y then some 1 else some (-1)) else compareLoop xs ys
  | _, _ => none

/-- The loop of `comparePreRelease` over the common positions; `none` when it
falls through. -/
def preReleaseLoop : List Str → List Str → Option Int
  | a :: as, b :: bs =>
    match Atoi a, Atoi b with
    | some n1, some n2 =>
      if n1 > n2 then some 1
      else if n1 < n2 then some (-1)
      else preReleaseLoop as bs
    | _, _ =>
      if strLess b a then some 1
      else if strLess a b then some (-1)
      else preReleaseLoop as bs
  | _, _ => none

/-- Go `comparePreRelease`. -/
def comparePreRelease (v ver : Version) : Int :=
  if v.PreRelease.length = 0 ∧ ver.PreRelease.length = 0 then 0
  else if v.PreRelease.length = 0 ∧ ver.PreRelease.length > 0 then 1
  else if v.PreRelease.length > 0 ∧ ver.PreRelease.length = 0 then -1
  else
    match preReleaseLoop v.PreRelease ver.PreRelease with
    | some r => r
    | none =>
      if v.PreRelease.length = ver.PreRelease.length then 0
      else if v.PreRelease.length > ver.PreRelease.length then 1
      else -1

/-- Go `Compare`. -/
def Compare (v ver : Version) : Int :=
  match compareLoop [v.Major, v.Minor, v.Patch] [ver.Major, ver.Minor, ver.Patch] with
  | some r => r
  | none => comparePreRelease v ver

/-- Go `Equals`. -/
def Equals (v ver : Version) : Bool := decide (Compare v ver = 0)

/-- Go `GreaterThan`. -/
def GreaterThan (v ver : Version) : Bool := decide (Compare v ver = 1)

/-- Go `LessThan`. -/
def LessThan (v ver : Version) : Bool := decide (Compare v ver = -1)

/-- Go `strPreRelease`. -/
def strPreRelease (v : Version) : Str :=
  let s := if v.PreRelease.length > 0 then Join v.PreRelease ['.'] else []
  if s.length > 0 ∧ isAlphaNumeric s = true then '-' :: s else []

/-- Go `strMetadata`. -/
def strMetadata (v : Version) : Str :=
  let s := if v.Metadata.length > 0 then Join v.Metadata ['.'] else []
  if s.length > 0 ∧ isAlphaNumeric s = true then '+' :: s else []

/-- Go `String`: `fmt.Sprintf("%d.%d.%d%s%s", ...)`. -/
def String (v : Version) : Str :=
  formatInt v.Major ++ ['.'] ++ formatInt v.Minor ++ ['.'] ++ formatInt v.Patch
    ++ strPreRelease v ++ strMetadata v

/-! ## `constraint.go` -/

/-- Go `NewConstraint`: the operator `=` with the default version. -/
def NewConstraint : Constraint :=
  { Operator := ['='], Version := NewVersion }

/-- Go `isOperator`. -/
def isOperator (ch : Char) : Bool := "=><".toList.contains ch

/-- The scanning loop of `ParseConstraint`: the leading characters accepted by
`isOperator`, up to the first one that is not. -/
def scanOperator : Str → Str
  | [] => []
  | r :: rest => if !isOperator r then [] else r :: scanOperator rest

/-- The validation loop of `ParseConstraint` over the five operators: the last
listed operator equal to the scanned text, starting from the empty text. -/
def selectOperator (operator : Str) : Str :=
  [['='], ['>'], ['<'], ['>', '='], ['<', '=']].foldl
    (fun acc o => if o = operator then o else acc) []

/-- Go `ParseConstraint`. -/
def ParseConstraint (str : Str) : Except Error Constraint :=
  let operator := scanOperator str
  let str := str.drop operator.length
  let op := selectOperator operator
  if op.length = 0 then .error Error.ErrInvalidOperator
  else
    match ParseVersion str with
    | .error err => .error err
    | .ok v => .ok { Operator := op, Version := v }

/-- Go `Match`. -/
def Match (c : Constraint) (v : Version) : Bool :=
  if c.Operator = ['='] then Equals v c.Version
  else if c.Operator = ['>'] then GreaterThan v c.Version
  else if c.Operator = ['<'] then LessThan v c.Version
  else if c.Operator = ['>', '='] then GreaterThan v c.Version || Equals v c.Version
  else if c.Operator = ['<', '='] then LessThan v c.Version || Equals v c.Version
  else false

/-! ## Specification-side vocabulary -/

/-- The text of `s` before the first occurrence of `ch` (all of `s` when `ch`
does not occur). -/
def textBefore (ch : Char) (s : Str) : Str := s.takeWhile (fun c => c != ch)

/-- The text of `s` after the first occurrence of `ch` (empty when `ch` does
not occur). -/
def textAfter (ch : Char) (s : Str) : Str := (s.dropWhile (fun c => c != ch)).tail

/-- The three numeric segments of a version text, read off the text itself:
the text before the first dot, the text between the first and the second dot,
and the text after the second dot up to the first plus or minus sign. -/
def numericSegments (s : Str) : List Str :=
  [ textBefore '.' s,
    textBefore '.' (textAfter '.' s),
    (textAfter '.' (textAfter '.' s)).takeWhile (fun c => c != '+' && c != '-') ]

/-- A segment that begins with a zero digit and is longer than one character. -/
def zeroLed (seg : Str) : Prop := ∃ r, r ≠ [] ∧ seg = '0' :: r

/-- An optional suffix introduced by the marker `c`. -/
def optSuffix (c : Char) : Option Str → Str
  | none => []
  | some x => c :: x

/-- The identifier sequence of an optional suffix: the dot-separated pieces of
its text, and the one-element sequence holding the empty text when absent. -/
def optField : Option Str → List Str
  | none => [[]]
  | some x => Split x '.'

/-- The value of a digit sequence read in base ten, starting from `n`. -/
def decimalFrom (n : Nat) (ds : Str) : Nat :=
  ds.foldl (fun k c => k * 10 + (c.toNat - 48)) n

/-- The text `seg` is a base-ten integer numeral of value `z` in the signed
64-bit range: a non-empty digit sequence, optionally preceded by one sign. -/
def int64Numeral (seg : Str) (z : Int) : Prop :=
  ∃ ds : Str, ds ≠ [] ∧ (∀ c ∈ ds, c.isDigit = true) ∧
    (((seg = ds ∨ seg = '+' :: ds) ∧ z = (decimalFrom 0 ds : Int) ∧ z < 2 ^ 63) ∨
      (seg = '-' :: ds ∧ z = -(decimalFrom 0 ds : Int) ∧ -(2 ^ 63) ≤ z))

/-- A character allowed in a SemVer identifier: an ASCII letter, a digit or
the hyphen. -/
def isIdentChar (c : Char) : Bool := c.isDigit || c.isAlpha || c == '-'

/-- A non-negative decimal numeral without sign or leading zeros. -/
def isNumeral (x : Str) : Bool :=
  !x.isEmpty && x.all Char.isDigit && !(decide (x.length > 1) && x.head? == some '0')

/-- A dot-separated list of non-empty identifiers. -/
def isIdentList (x : Str) : Bool :=
  (Split x '.').all (fun i => !i.isEmpty && i.all isIdentChar)

/-- The SemVer 2.0.0 version grammar as the specification words it: three
numerals separated by dots, then an optional pre-release introduced by a
hyphen and an optional build metadata introduced by a plus sign, each a
dot-separated list of non-empty identifiers. -/
def isSemVer (s : Str) : Bool :=
  let t := textAfter '.' (textAfter '.' s)
  decide ('.' ∈ s) && decide ('.' ∈ textAfter '.' s) &&
    isNumeral (textBefore '.' s) && isNumeral (textBefore '.' (textAfter '.' s)) &&
    isNumeral (t.takeWhile Char.isDigit) &&
    (match t.dropWhile Char.isDigit with
     | [] => true
     | c :: r =>
       if c = '-' then
         isIdentList (textBefore '+' r) && (decide ('+' ∉ r) || isIdentList (textAfter '+' r))
       else if c = '+' then isIdentList r
       else false)

/-- Three-way comparison of two integers: `-1`, `0` or `1`. -/
def cmpInt (x y : Int) : Int := if x < y then -1 else if y < x then 1 else 0

/-- The integer a text denotes, read off the text itself: an optional sign
followed by a non-empty run of decimal digits whose value lies in the signed
64-bit range; `none` for any other text. -/
def numeralValue (seg : Str) : Option Int :=
  let ds := if seg.head? = some '-' ∨ seg.head? = some '+' then seg.tail else seg
  let z : Int := if seg.head? = some '-' then -(decimalFrom 0 ds : Int) else decimalFrom 0 ds
  if ds ≠ [] ∧ ds.all Char.isDigit = true ∧ -(2 ^ 63) ≤ z ∧ z < 2 ^ 63 then some z else none

/-- Three-way comparison of two identifiers as the specification words it: as
integers when both denote integers, and otherwise as strings, in the
lexicographic order of their characters. -/
def cmpIdent (x y : Str) : Int :=
  match numeralValue x, numeralValue y with
  | some n1, some n2 => cmpInt n1 n2
  | _, _ => if List.Lex (· < ·) x y then -1 else if List.Lex (· < ·) y x then 1 else 0

/-- Reference definition of the ordering, following the specification: the
first differing field among `Major`, `Minor`, `Patch` decides; when all three
are equal the result is `0` if both pre-release sequences are empty, `1` if
only the first is empty, `-1` if only the second is empty, and otherwise the
comparison at the first common position where the identifiers differ, the
longer sequence being greater when no common position differs. -/
def CompareRef (a b : Version) : Int :=
  match [cmpInt a.Major b.Major, cmpInt a.Minor b.Minor, cmpInt a.Patch b.Patch].find?
      (fun r => decide (r ≠ 0)) with
  | some r => r
  | none =>
    if a.PreRelease = [] ∧ b.PreRelease = [] then 0
    else if a.PreRelease = [] then 1
    else if b.PreRelease = [] then -1
    else
      match (List.zipWith cmpIdent a.PreRelease b.PreRelease).find?
          (fun r => decide (r ≠ 0)) with
      | some r => r
      | none => cmpInt a.PreRelease.length b.PreRelease.length

/-- Reference rendering of one suffix, following the specification: the marker
followed by the identifiers joined by dots, exactly when the joined text is
non-empty and made only of ASCII letters, digits and hyphens; nothing
otherwise. -/
def suffixRef (marker : Char) (ids : List Str) : Str :=
  if List.intercalate ['.'] ids ≠ [] ∧ (List.intercalate ['.'] ids).all isIdentChar = true
  then marker :: List.intercalate ['.'] ids else []

/-- Reference rendering of a version, following the specification. -/
def StringRef (v : Version) : Str :=
  (toString v.Major).toList ++ '.' :: ((toString v.Minor).toList ++ '.' ::
    ((toString v.Patch).toList ++ (suffixRef '-' v.PreRelease ++ suffixRef '+' v.Metadata)))

/-- The maximal leading run of characters drawn from `=`, `>`, `<`. -/
def leadingOperatorRun (s : Str) : Str :=
  s.takeWhile (fun c => c == '=' || c == '>' || c == '<')

/-- The five operator tokens `=`, `>`, `<`, `>=`, `<=`. -/
def validOperators : List Str :=
  [['='], ['>'], ['<'], ['>', '='], ['<', '=']]

/-! ## Lemmas on the string primitives -/

theorem IndexRune_none {s : Str} {ch : Char} (h : ch ∉ s) : IndexRune s ch = none := by
  induction s with
  | nil => rfl
  | cons c cs ih =>
    simp only [List.mem_cons, not_or] at h
    have hc : c ≠ ch := fun e => h.1 e.symm
    simp [IndexRune, hc, ih h.2]

theorem IndexRune_some_of_mem {s : Str} {ch : Char} (h : ch ∈ s) :
    ∃ i, IndexRune s ch = some i ∧ s.take i = textBefore ch s ∧
      s.drop (i + 1) = textAfter ch s := by
  induction s with
  | nil => simp at h
  | cons c cs ih =>
    by_cases hc : c = ch
    · subst hc
      exact ⟨0, by simp [IndexRune], by simp [textBefore], by simp [textAfter]⟩
    · have h2 : ch ∈ cs := by
        rcases List.mem_cons.1 h with h | h
        · exact absurd h.symm hc
        · exact h
      obtain ⟨i, hi, ht, hd⟩ := ih h2
      refine ⟨i + 1, by simp [IndexRune, hc, hi], ?_, ?_⟩
      · simp only [textBefore] at ht ⊢
        simp [List.takeWhile_cons, hc, ht]
      · simp only [textAfter] at hd ⊢
        simp [List.dropWhile_cons, hc, hd]

theorem textBefore_of_not_mem {s : Str} {ch : Char} (h : ch ∉ s) : textBefore ch s = s := by
  unfold textBefore
  rw [List.takeWhile_eq_self_iff]
  intro x hx
  have : x ≠ ch := fun e => h (e ▸ hx)
  simpa using this

theorem textAfter_of_not_mem {s : Str} {ch : Char} (h : ch ∉ s) : textAfter ch s = [] := by
  unfold textAfter
  have : s.dropWhile (fun c => c != ch) = [] := by
    rw [List.dropWhile_eq_nil_iff]
    intro x hx
    have : x ≠ ch := fun e => h (e ▸ hx)
    simpa using this
  rw [this]; rfl

theorem textBefore_append {a b : Str} {ch : Char} (h : ch ∉ a) :
    textBefore ch (a ++ ch :: b) = a := by
  induction a with
  | nil => simp [textBefore]
  | cons c cs ih =>
    simp only [List.mem_cons, not_or] at h
    have hc : c ≠ ch := fun e => h.1 e.symm
    simp only [textBefore] at ih ⊢
    simp [List.takeWhile_cons, hc, ih h.2]

theorem textAfter_append {a b : Str} {ch : Char} (h : ch ∉ a) :
    textAfter ch (a ++ ch :: b) = b := by
  induction a with
  | nil => simp [textAfter]
  | cons c cs ih =>
    simp only [List.mem_cons, not_or] at h
    have hc : c ≠ ch := fun e => h.1 e.symm
    simp only [textAfter] at ih ⊢
    simp [List.dropWhile_cons, hc, ih h.2]

theorem stripAfter_eq (s : Str) (ch : Char) :
    stripAfter s ch = (textAfter ch s, textBefore ch s) := by
  unfold stripAfter
  by_cases h : ch ∈ s
  · obtain ⟨i, hi, ht, hd⟩ := IndexRune_some_of_mem h
    simp [hi, ht, hd]
  · simp [IndexRune_none h, textBefore_of_not_mem h, textAfter_of_not_mem h]

theorem genSplit_succ (s : Str) (sep : Char) (n : Nat) :
    genSplit s sep (n + 1) =
      if sep ∈ s then textBefore sep s :: genSplit (textAfter sep s) sep n else [s] := by
  by_cases h : sep ∈ s
  · obtain ⟨i, hi, ht, hd⟩ := IndexRune_some_of_mem h
    simp [genSplit, hi, ht, hd, h]
  · simp [genSplit, IndexRune_none h, h]

theorem SplitN_three (s : Str) :
    SplitN s '.' 3 =
      if '.' ∈ s then
        (if '.' ∈ textAfter '.' s then
          [textBefore '.' s, textBefore '.' (textAfter '.' s), textAfter '.' (textAfter '.' s)]
        else [textBefore '.' s, textAfter '.' s])
      else [s] := by
  have h3 : SplitN s '.' 3 = genSplit s '.' (1 + 1) := rfl
  rw [h3, genSplit_succ, genSplit_succ]
  split_ifs <;> simp [genSplit]

theorem parseSegments_three_ok (a b c : Str) (l : List Int) :
    parseSegments [a, b, c] = .ok l ↔
      hasLeadingZero a = false ∧ hasLeadingZero b = false ∧ hasLeadingZero c = false ∧
      ∃ x y z, ParseInt a = some x ∧ ParseInt b = some y ∧ ParseInt c = some z ∧
        l = [x, y, z] := by
  simp only [parseSegments]
  cases hasLeadingZero a <;> cases hasLeadingZero b <;> cases hasLeadingZero c <;>
    cases ParseInt a <;> cases ParseInt b <;> cases ParseInt c <;> simp [eq_comm]

theorem parseSegments_error (l : List Str) (e : Error) (h : parseSegments l = .error e) :
    e = Error.ErrInvalidFormat := by
  induction l generalizing e with
  | nil => simp [parseSegments] at h
  | cons a rest ih =>
    simp only [parseSegments] at h
    split_ifs at h with h1
    · injection h with h; exact h.symm
    · cases h2 : ParseInt a with
      | none => rw [h2] at h; injection h with h; exact h.symm
      | some x =>
        rw [h2] at h
        cases h3 : parseSegments rest with
        | error e2 =>
          rw [h3] at h
          injection h with h
          exact h ▸ ih e2 h3
        | ok vs => rw [h3] at h; cases h

/-- Normal form of a successful `ParseVersion`, in terms of the text before
and after the separators. -/
theorem ParseVersion_ok_iff (s : Str) (v : Version) :
    ParseVersion s = .ok v ↔
      '.' ∈ s ∧ '.' ∈ textAfter '.' s ∧
      hasLeadingZero (textBefore '.' s) = false ∧
      hasLeadingZero (textBefore '.' (textAfter '.' s)) = false ∧
      hasLeadingZero (textBefore '-' (textBefore '+' (textAfter '.' (textAfter '.' s)))) = false ∧
      ParseInt (textBefore '.' s) = some v.Major ∧
      ParseInt (textBefore '.' (textAfter '.' s)) = some v.Minor ∧
      ParseInt (textBefore '-' (textBefore '+' (textAfter '.' (textAfter '.' s)))) = some v.Patch ∧
      v.PreRelease = Split (textAfter '-' (textBefore '+' (textAfter '.' (textAfter '.' s)))) '.' ∧
      v.Metadata = Split (textAfter '+' (textAfter '.' (textAfter '.' s))) '.' := by
  unfold ParseVersion
  rw [SplitN_three]
  by_cases h1 : '.' ∈ s
  · by_cases h2 : '.' ∈ textAfter '.' s
    · simp only [h1, h2, if_true, stripAfter_eq, true_and]
      cases hp : parseSegments [textBefore '.' s, textBefore '.' (textAfter '.' s),
          textBefore '-' (textBefore '+' (textAfter '.' (textAfter '.' s)))] with
      | error e =>
        refine ⟨fun h => (by cases h), ?_⟩
        rintro ⟨z1, z2, z3, p1, p2, p3, -, -⟩
        have := (parseSegments_three_ok _ _ _ [v.Major, v.Minor, v.Patch]).2
          ⟨z1, z2, z3, _, _, _, p1, p2, p3, rfl⟩
        rw [hp] at this
        cases this
      | ok l =>
        obtain ⟨z1, z2, z3, x, y, z, p1, p2, p3, rfl⟩ := (parseSegments_three_ok _ _ _ l).1 hp
        simp only [z1, z2, z3, p1, p2, p3, true_and, Option.some.injEq, Except.ok.injEq]
        constructor
        · rintro rfl
          simp
        · rintro ⟨rfl, rfl, rfl, h4, h5⟩
          cases v
          simp_all
    · simp [h1, h2]
  · simp [h1]

theorem ParseVersion_error (s : Str) (e : Error) (h : ParseVersion s = .error e) :
    e = Error.ErrInvalidFormat := by
  unfold ParseVersion at h
  split at h
  · simp only [] at h
    split at h
    · cases h
    · injection h with h; exact h.symm
  · injection h with h; exact h.symm

/-! ## Lemmas on integer parsing -/

theorem le_decimalFrom (n : Nat) (ds : Str) : n ≤ decimalFrom n ds := by
  induction ds generalizing n with
  | nil => exact le_refl n
  | cons c cs ih =>
    have h := ih (n * 10 + (c.toNat - 48))
    simp only [decimalFrom, List.foldl_cons] at h ⊢
    omega

theorem parseDigits_eq_some (ds : Str) (n k : Nat) :
    parseDigits ds n = some k ↔
      (∀ c ∈ ds, c.isDigit = true) ∧ k = decimalFrom n ds ∧ (ds ≠ [] → k < 2 ^ 64) := by
  induction ds generalizing n with
  | nil =>
    constructor
    · intro h
      injection h with h
      exact ⟨by simp, h.symm, fun h => absurd rfl h⟩
    · rintro ⟨-, h, -⟩
      rw [h]; rfl
  | cons c cs ih =>
    simp only [parseDigits]
    by_cases hc : c.isDigit = true
    · simp only [hc, if_true, List.mem_cons, forall_eq_or_imp, true_and, ne_eq,
        not_false_eq_true, forall_const, reduceCtorEq]
      have hd : decimalFrom n (c :: cs) = decimalFrom (n * 10 + (c.toNat - 48)) cs := rfl
      have hle := le_decimalFrom (n * 10 + (c.toNat - 48)) cs
      rw [hd]
      by_cases hlt : n * 10 + (c.toNat - 48) < 2 ^ 64
      · simp only [hlt, if_true, ih]
        constructor
        · rintro ⟨h1, h2, h3⟩
          refine ⟨h1, h2, ?_⟩
          by_cases hcs : cs = []
          · subst hcs
            have h0 : decimalFrom (n * 10 + (c.toNat - 48)) [] = n * 10 + (c.toNat - 48) := rfl
            rw [h2, h0]
            exact hlt
          · exact h3 hcs
        · rintro ⟨h1, h2, h3⟩
          exact ⟨h1, h2, fun _ => h3⟩
      · simp only [hlt, if_false, false_iff, reduceCtorEq]
        rintro ⟨-, h2, h3⟩
        omega
    · simp [hc]

theorem ParseUint_eq_some (ds : Str) (k : Nat) :
    ParseUint ds = some k ↔
      ds ≠ [] ∧ (∀ c ∈ ds, c.isDigit = true) ∧ k = decimalFrom 0 ds ∧ k < 2 ^ 64 := by
  unfold ParseUint
  by_cases h : ds = []
  · simp [h]
  · simp only [h, if_false, parseDigits_eq_some, ne_eq, not_false_eq_true, forall_const, true_and]

theorem ParseUint_bind_applySign (ds : Str) (neg : Bool) (z : Int) :
    (ParseUint ds).bind (applySign neg) = some z ↔
      ds ≠ [] ∧ (∀ c ∈ ds, c.isDigit = true) ∧
        (if neg then z = -(decimalFrom 0 ds : Int) ∧ -(2 ^ 63) ≤ z
         else z = (decimalFrom 0 ds : Int) ∧ z < 2 ^ 63) := by
  constructor
  · intro h
    cases hu : ParseUint ds with
    | none => rw [hu] at h; simp at h
    | some k =>
      rw [hu] at h
      obtain ⟨h1, h2, h3, h4⟩ := (ParseUint_eq_some ds k).1 hu
      refine ⟨h1, h2, ?_⟩
      subst h3
      cases neg
      · simp only [Option.some_bind, applySign, Bool.not_false, Bool.true_and, ge_iff_le,
          decide_eq_true_eq, Bool.false_and, Bool.false_eq_true, if_false] at h
        split_ifs at h with h5
        simp only [Option.some.injEq] at h
        simp only [Bool.false_eq_true, if_false]
        omega
      · simp only [Option.some_bind, applySign, Bool.not_true, Bool.false_and,
          Bool.false_eq_true, if_false, Bool.true_and, gt_iff_lt, decide_eq_true_eq,
          if_true] at h
        split_ifs at h with h5
        simp only [Option.some.injEq] at h
        simp only [if_true]
        omega
  · rintro ⟨h1, h2, h3⟩
    cases neg
    · simp only [Bool.false_eq_true, if_false] at h3
      have hk : decimalFrom 0 ds < 2 ^ 63 := by omega
      have hu : ParseUint ds = some (decimalFrom 0 ds) :=
        (ParseUint_eq_some ds _).2 ⟨h1, h2, rfl, by omega⟩
      have h5 : ¬ (2 ^ 63 ≤ decimalFrom 0 ds) := by omega
      simp [hu, applySign, h5, h3.1]
      omega
    · simp only [if_true] at h3
      have hk : decimalFrom 0 ds ≤ 2 ^ 63 := by omega
      have hu : ParseUint ds = some (decimalFrom 0 ds) :=
        (ParseUint_eq_some ds _).2 ⟨h1, h2, rfl, by omega⟩
      have h5 : ¬ (2 ^ 63 < decimalFrom 0 ds) := by omega
      simp [hu, applySign, h5, h3.1]
      omega

theorem ParseInt_eq_some (seg : Str) (z : Int) :
    ParseInt seg = some z ↔ int64Numeral seg z := by
  unfold int64Numeral
  cases seg with
  | nil =>
    simp only [ParseInt, false_iff, reduceCtorEq]
    rintro ⟨ds, h1, -, (⟨h | h, -⟩ | ⟨h, -⟩)⟩
    · exact h1 h.symm
    · cases h
    · cases h
  | cons c cs =>
    simp only [ParseInt]
    by_cases hp : c = '+'
    · subst hp
      simp only [if_true, ParseUint_bind_applySign, Bool.false_eq_true, if_false]
      constructor
      · rintro ⟨h1, h2, h3⟩
        exact ⟨cs, h1, h2, Or.inl ⟨Or.inr rfl, h3⟩⟩
      · rintro ⟨ds, h1, h2, (⟨h | h, h3⟩ | ⟨h, -⟩)⟩
        · subst h
          have := h2 '+' (List.mem_cons_self _ _)
          exact absurd this (by decide)
        · injection h with _ h
          subst h
          exact ⟨h1, h2, h3⟩
        · injection h with h _
          exact absurd h (by decide)
    · by_cases hm : c = '-'
      · subst hm
        simp only [if_true, ParseUint_bind_applySign, if_neg hp]
        constructor
        · rintro ⟨h1, h2, h3⟩
          exact ⟨cs, h1, h2, Or.inr ⟨rfl, h3⟩⟩
        · rintro ⟨ds, h1, h2, (⟨h | h, h3⟩ | ⟨h, h3⟩)⟩
          · subst h
            have := h2 '-' (List.mem_cons_self _ _)
            exact absurd this (by decide)
          · injection h with h _
            exact absurd h (by decide)
          · injection h with _ h
            subst h
            exact ⟨h1, h2, h3⟩
      · simp only [if_neg hp, if_neg hm, ParseUint_bind_applySign, Bool.false_eq_true, if_false]
        constructor
        · rintro ⟨h1, h2, h3⟩
          exact ⟨c :: cs, h1, h2, Or.inl ⟨Or.inl rfl, h3⟩⟩
        · rintro ⟨ds, h1, h2, (⟨h | h, h3⟩ | ⟨h, h3⟩)⟩
          · subst h
            exact ⟨h1, h2, h3⟩
          · injection h with h _
            exact absurd h hp
          · injection h with h _
            exact absurd h hm

/-! ## Lemmas on the ordering -/

theorem strLess_irrefl (a : Str) : strLess a a = false := by
  induction a with
  | nil => rfl
  | cons c cs ih => simp [strLess, ih]

theorem strLess_asymm {a b : Str} (h : strLess a b = true) : strLess b a = false := by
  induction a generalizing b with
  | nil => cases b <;> simp_all [strLess]
  | cons c cs ih =>
    cases b with
    | nil => simp [strLess] at h
    | cons d ds =>
      simp only [strLess] at h ⊢
      by_cases h1 : c < d
      · have h2 : ¬ d < c := lt_asymm h1
        simp [h1, h2]
      · by_cases h2 : d < c
        · simp [h1, h2] at h
        · simp only [h1, h2, if_false] at h ⊢
          exact ih h

theorem strLess_connected {a b : Str} (h1 : strLess a b = false) (h2 : strLess b a = false) :
    a = b := by
  induction a generalizing b with
  | nil => cases b <;> simp_all [strLess]
  | cons c cs ih =>
    cases b with
    | nil => simp [strLess] at h2
    | cons d ds =>
      simp only [strLess] at h1 h2
      by_cases h3 : c < d
      · simp [h3] at h1
      · by_cases h4 : d < c
        · simp [h4] at h2
        · simp only [h3, h4, if_false] at h1 h2
          have : c = d := le_antisymm (not_lt.1 h4) (not_lt.1 h3)
          rw [this, ih h1 h2]

/-- The model of Go's string order is the lexicographic order on code points. -/
theorem strLess_iff_lex (a b : Str) : strLess a b = true ↔ List.Lex (· < ·) a b := by
  induction a generalizing b with
  | nil =>
    cases b with
    | nil => exact ⟨fun h => (by cases h), fun h => (by cases h)⟩
    | cons d ds => exact ⟨fun _ => List.Lex.nil, fun _ => rfl⟩
  | cons c cs ih =>
    cases b with
    | nil => exact ⟨fun h => (by cases h), fun h => (by cases h)⟩
    | cons d ds =>
      simp only [strLess]
      by_cases h1 : c < d
      · simp only [h1, if_true, true_iff]
        exact List.Lex.rel h1
      · by_cases h2 : d < c
        · simp only [h1, h2, if_true, if_false, Bool.false_eq_true, false_iff]
          intro h
          cases h with
          | cons h => exact lt_irrefl _ h2
          | rel h => exact h1 h
        · have e : c = d := le_antisymm (not_lt.1 h2) (not_lt.1 h1)
          subst e
          simp only [h1, if_false, ih]
          constructor
          · exact fun h => List.Lex.cons h
          · intro h
            cases h with
            | cons h => exact h
            | rel h => exact absurd h h1

theorem preReleaseLoop_swap (a b : List Str) :
    preReleaseLoop b a = (preReleaseLoop a b).map (fun r => -r) := by
  induction a generalizing b with
  | nil => cases b <;> simp [preReleaseLoop]
  | cons x xs ih =>
    cases b with
    | nil => simp [preReleaseLoop]
    | cons y ys =>
      have hstr : (if strLess x y = true then some (1 : Int)
            else if strLess y x = true then some (-1) else preReleaseLoop ys xs) =
          Option.map (fun r => -r) (if strLess y x = true then some (1 : Int)
            else if strLess x y = true then some (-1) else preReleaseLoop xs ys) := by
        cases hxy : strLess x y
        · cases hyx : strLess y x
          · simp [ih]
          · simp
        · simp [strLess_asymm hxy]
      simp only [preReleaseLoop]
      cases h1 : Atoi x with
      | none => cases h2 : Atoi y <;> simpa using hstr
      | some n1 =>
        cases h2 : Atoi y with
        | none => simpa using hstr
        | some n2 =>
          simp only
          rcases lt_trichotomy n1 n2 with h | h | h
          · have h3 : ¬ n1 > n2 := not_lt.2 (le_of_lt h)
            simp [h, h3]
          · subst h
            simp [ih]
          · have h3 : ¬ n1 < n2 := not_lt.2 (le_of_lt h)
            simp [h, h3]

theorem preReleaseLoop_self (a : List Str) : preReleaseLoop a a = none := by
  induction a with
  | nil => rfl
  | cons x xs ih =>
    simp only [preReleaseLoop]
    cases h1 : Atoi x <;> simp [strLess_irrefl, ih]

theorem comparePreRelease_swap (a b : Version) :
    comparePreRelease a b = -comparePreRelease b a := by
  unfold comparePreRelease
  rw [preReleaseLoop_swap b.PreRelease a.PreRelease]
  rcases Nat.eq_zero_or_pos a.PreRelease.length with ha | ha <;>
    rcases Nat.eq_zero_or_pos b.PreRelease.length with hb | hb
  · simp [ha, hb]
  · simp [ha, hb, Nat.pos_iff_ne_zero.1 hb]
  · simp [ha, hb, Nat.pos_iff_ne_zero.1 ha]
  · have ha2 := Nat.pos_iff_ne_zero.1 ha
    have hb2 := Nat.pos_iff_ne_zero.1 hb
    simp only [ha2, hb2, ha, hb, false_and, and_false, if_false]
    cases preReleaseLoop b.PreRelease a.PreRelease with
    | some r => simp
    | none =>
      simp only [Option.map_none']
      rcases lt_trichotomy a.PreRelease.length b.PreRelease.length with h | h | h
      · have h1 : a.PreRelease.length ≠ b.PreRelease.length := ne_of_lt h
        have h2 : ¬ a.PreRelease.length > b.PreRelease.length := not_lt.2 (le_of_lt h)
        simp [h, h1, h1.symm, h2]
      · simp [h]
      · have h1 : a.PreRelease.length ≠ b.PreRelease.length := ne_of_gt h
        have h2 : ¬ a.PreRelease.length < b.PreRelease.length := not_lt.2 (le_of_lt h)
        simp [h, h1, h1.symm, h2]

theorem compareLoop_three (a b c x y z : Int) :
    compareLoop [a, b, c] [x, y, z] =
      if a ≠ x then (if a > x then some 1 else some (-1))
      else if b ≠ y then (if b > y then some 1 else some (-1))
      else if c ≠ z then (if c > z then some 1 else some (-1))
      else none := by
  simp only [compareLoop]

theorem Compare_swap (a b : Version) : Compare a b = -Compare b a := by
  unfold Compare
  rw [compareLoop_three, compareLoop_three]
  by_cases h1 : a.Major = b.Major
  · by_cases h2 : a.Minor = b.Minor
    · by_cases h3 : a.Patch = b.Patch
      · simp [h1, h2, h3, comparePreRelease_swap a b]
      · have h3s : ¬ b.Patch = a.Patch := fun e => h3 e.symm
        simp only [h1, h2, h3, h3s, ne_eq, not_true_eq_false, not_false_eq_true, if_true, if_false]
        split_ifs <;> first | rfl | omega
    · have h2s : ¬ b.Minor = a.Minor := fun e => h2 e.symm
      simp only [h1, h2, h2s, ne_eq, not_true_eq_false, not_false_eq_true, if_true, if_false]
      split_ifs <;> first | rfl | omega
  · have h1s : ¬ b.Major = a.Major := fun e => h1 e.symm
    simp only [h1, h1s, ne_eq, not_false_eq_true, if_true]
    split_ifs <;> first | rfl | omega

theorem comparePreRelease_self (a : Version) : comparePreRelease a a = 0 := by
  unfold comparePreRelease
  rw [preReleaseLoop_self]
  split_ifs <;> first | rfl | omega

theorem Compare_self (a : Version) : Compare a a = 0 := by
  unfold Compare
  rw [compareLoop_three]
  simp [comparePreRelease_self]

theorem Compare_setMetadata (a b : Version) (m1 m2 : List Str) :
    Compare { a with Metadata := m1 } { b with Metadata := m2 } = Compare a b := rfl

theorem preReleaseLoop_range (a b : List Str) (r : Int) (h : preReleaseLoop a b = some r) :
    r = 1 ∨ r = -1 := by
  induction a generalizing b with
  | nil => cases b <;> simp [preReleaseLoop] at h
  | cons x xs ih =>
    cases b with
    | nil => simp [preReleaseLoop] at h
    | cons y ys =>
      simp only [preReleaseLoop] at h
      split at h
      · split_ifs at h
        · left; injection h with h; exact h.symm
        · right; injection h with h; exact h.symm
        · exact ih _ h
      · split_ifs at h
        · left; injection h with h; exact h.symm
        · right; injection h with h; exact h.symm
        · exact ih _ h

theorem comparePreRelease_range (a b : Version) :
    comparePreRelease a b = -1 ∨ comparePreRelease a b = 0 ∨ comparePreRelease a b = 1 := by
  unfold comparePreRelease
  cases h : preReleaseLoop a.PreRelease b.PreRelease with
  | some r =>
    rcases preReleaseLoop_range _ _ r h with h2 | h2 <;> subst h2 <;> simp only [] <;>
      split_ifs <;> decide
  | none => simp only []; split_ifs <;> decide

theorem Compare_range (a b : Version) :
    Compare a b = -1 ∨ Compare a b = 0 ∨ Compare a b = 1 := by
  unfold Compare
  rw [compareLoop_three]
  split_ifs
  · right; right; rfl
  · left; rfl
  · right; right; rfl
  · left; rfl
  · right; right; rfl
  · left; rfl
  · exact comparePreRelease_range a b

theorem preReleaseLoop_cons_none (x y : Str) (xs ys : List Str) :
    preReleaseLoop (x :: xs) (y :: ys) = none ↔
      ((∃ n, Atoi x = some n ∧ Atoi y = some n) ∨
        ((Atoi x = none ∨ Atoi y = none) ∧ x = y)) ∧ preReleaseLoop xs ys = none := by
  have hstr : (if strLess y x = true then some (1 : Int)
        else if strLess x y = true then some (-1) else preReleaseLoop xs ys) = none ↔
      x = y ∧ preReleaseLoop xs ys = none := by
    constructor
    · intro h
      split_ifs at h with h1 h2
      exact ⟨strLess_connected (by simpa using h2) (by simpa using h1), h⟩
    · rintro ⟨rfl, h⟩
      simp [strLess_irrefl, h]
  simp only [preReleaseLoop]
  cases h1 : Atoi x with
  | none => cases h2 : Atoi y <;> simpa using hstr
  | some n1 =>
    cases h2 : Atoi y with
    | none => simpa using hstr
    | some n2 =>
      simp only
      constructor
      · intro h
        split_ifs at h with h3 h4
        have : n1 = n2 := le_antisymm (not_lt.1 h3) (not_lt.1 h4)
        exact ⟨Or.inl ⟨n1, rfl, by rw [this]⟩, h⟩
      · rintro ⟨(⟨n, e1, e2⟩ | ⟨(e | e), -⟩), h⟩
        · injection e1 with e1
          injection e2 with e2
          subst e1 e2
          simp [h]
        · cases e
        · cases e

theorem preReleaseLoop_none_trans (a b c : List Str)
    (h1 : a.length = b.length) (h2 : b.length = c.length)
    (hab : preReleaseLoop a b = none) (hbc : preReleaseLoop b c = none) :
    preReleaseLoop a c = none := by
  induction a generalizing b c with
  | nil => cases c <;> rfl
  | cons x xs ih =>
    cases b with
    | nil => simp at h1
    | cons y ys =>
      cases c with
      | nil => simp at h2
      | cons z zs =>
        rw [preReleaseLoop_cons_none] at hab hbc ⊢
        refine ⟨?_, ih ys zs (by simpa using h1) (by simpa using h2) hab.2 hbc.2⟩
        rcases hab.1 with ⟨n, e1, e2⟩ | ⟨e1, rfl⟩
        · rcases hbc.1 with ⟨k, e3, e4⟩ | ⟨e3, rfl⟩
          · rw [e2] at e3
            injection e3 with e3
            subst e3
            exact Or.inl ⟨n, e1, e4⟩
          · exact Or.inl ⟨n, e1, e2⟩
        · exact hbc.1

theorem comparePreRelease_eq_zero (a b : Version) :
    comparePreRelease a b = 0 ↔
      a.PreRelease.length = b.PreRelease.length ∧
        preReleaseLoop a.PreRelease b.PreRelease = none := by
  unfold comparePreRelease
  cases h : preReleaseLoop a.PreRelease b.PreRelease with
  | some r =>
    have hr := preReleaseLoop_range _ _ r h
    have ha : a.PreRelease ≠ [] := by
      intro e; rw [e] at h; cases hb : b.PreRelease <;> simp [preReleaseLoop] at h
    have hb : b.PreRelease ≠ [] := by
      intro e; rw [e] at h; cases ha : a.PreRelease <;> simp [preReleaseLoop] at h
    have ha2 : a.PreRelease.length ≠ 0 := fun e => ha (List.length_eq_zero.1 e)
    have hb2 : b.PreRelease.length ≠ 0 := fun e => hb (List.length_eq_zero.1 e)
    simp only [ha2, hb2, false_and, and_false, if_false, reduceCtorEq]
    rcases hr with rfl | rfl <;> decide
  | none =>
    simp only [and_true]
    split_ifs <;> first | omega | simp_all

theorem Compare_eq_zero (a b : Version) :
    Compare a b = 0 ↔
      a.Major = b.Major ∧ a.Minor = b.Minor ∧ a.Patch = b.Patch ∧
        a.PreRelease.length = b.PreRelease.length ∧
        preReleaseLoop a.PreRelease b.PreRelease = none := by
  unfold Compare
  rw [compareLoop_three]
  by_cases h1 : a.Major = b.Major
  · by_cases h2 : a.Minor = b.Minor
    · by_cases h3 : a.Patch = b.Patch
      · simp [h1, h2, h3, comparePreRelease_eq_zero]
      · simp only [h1, h2, h3, ne_eq, not_true_eq_false, not_false_eq_true, if_true, if_false,
          false_and, and_false, iff_false]
        split_ifs <;> simp
    · simp only [h1, h2, ne_eq, not_true_eq_false, not_false_eq_true, if_true, if_false,
        false_and, and_false, iff_false]
      split_ifs <;> simp
  · simp only [h1, ne_eq, not_false_eq_true, if_true, false_and, iff_false]
    split_ifs <;> simp

/-- The relation `Compare = 0` is transitive. -/
theorem Compare_eq_zero_trans (a b c : Version)
    (hab : Compare a b = 0) (hbc : Compare b c = 0) : Compare a c = 0 := by
  rw [Compare_eq_zero] at hab hbc ⊢
  obtain ⟨a1, a2, a3, a4, a5⟩ := hab
  obtain ⟨b1, b2, b3, b4, b5⟩ := hbc
  exact ⟨a1.trans b1, a2.trans b2, a3.trans b3, a4.trans b4,
    preReleaseLoop_none_trans _ _ _ a4 b4 a5 b5⟩

/-! ## Lemmas on the decomposition of a version text -/

theorem Split_nil (sep : Char) : Split [] sep = [[]] := rfl

theorem textBefore_textBefore (t : Str) :
    textBefore '-' (textBefore '+' t) = t.takeWhile (fun c => c != '+' && c != '-') := by
  unfold textBefore
  induction t with
  | nil => rfl
  | cons c cs ih =>
    by_cases h1 : c = '+'
    · simp [List.takeWhile_cons, h1]
    · by_cases h2 : c = '-'
      · simp [List.takeWhile_cons, h2]
      · simp [List.takeWhile_cons, h1, h2, ih]

theorem numericSegments_eq (s : Str) :
    numericSegments s =
      [ textBefore '.' s, textBefore '.' (textAfter '.' s),
        textBefore '-' (textBefore '+' (textAfter '.' (textAfter '.' s))) ] := by
  rw [textBefore_textBefore]; rfl

theorem textBefore_dots (M m t : Str) (hM : '.' ∉ M) :
    textBefore '.' (M ++ '.' :: m ++ '.' :: t) = M := by
  rw [List.append_assoc]
  exact textBefore_append hM

theorem textAfter_dots (M m t : Str) (hM : '.' ∉ M) :
    textAfter '.' (M ++ '.' :: m ++ '.' :: t) = m ++ '.' :: t := by
  rw [List.append_assoc]
  exact textAfter_append hM

theorem remainder_parts (p : Str) (pre meta : Option Str)
    (hp1 : '+' ∉ p) (hp2 : '-' ∉ p) (hpre : ∀ x, pre = some x → '+' ∉ x) :
    textBefore '-' (textBefore '+' (p ++ optSuffix '-' pre ++ optSuffix '+' meta)) = p ∧
      Split (textAfter '-' (textBefore '+' (p ++ optSuffix '-' pre ++ optSuffix '+' meta))) '.'
        = optField pre ∧
      Split (textAfter '+' (p ++ optSuffix '-' pre ++ optSuffix '+' meta)) '.'
        = optField meta := by
  have hu : '+' ∉ p ++ optSuffix '-' pre := by
    cases pre with
    | none => simpa [optSuffix] using hp1
    | some x =>
      have := hpre x rfl
      simp [optSuffix, hp1, this]
  have hb : textBefore '+' (p ++ optSuffix '-' pre ++ optSuffix '+' meta)
      = p ++ optSuffix '-' pre := by
    cases meta with
    | none => simpa [optSuffix] using textBefore_of_not_mem hu
    | some y => exact textBefore_append hu
  have ha : Split (textAfter '+' (p ++ optSuffix '-' pre ++ optSuffix '+' meta)) '.'
      = optField meta := by
    cases meta with
    | none =>
      have : textAfter '+' (p ++ optSuffix '-' pre ++ optSuffix '+' none) = [] := by
        simpa [optSuffix] using textAfter_of_not_mem hu
      rw [this]; rfl
    | some y =>
      have : textAfter '+' (p ++ optSuffix '-' pre ++ optSuffix '+' (some y)) = y :=
        textAfter_append hu
      rw [this]; rfl
  rw [hb]
  refine ⟨?_, ?_, ha⟩
  · cases pre with
    | none => simpa [optSuffix] using textBefore_of_not_mem hp2
    | some x => exact textBefore_append hp2
  · cases pre with
    | none =>
      have : textAfter '-' (p ++ optSuffix '-' none) = [] := by
        simpa [optSuffix] using textAfter_of_not_mem hp2
      rw [this]; rfl
    | some x =>
      have : textAfter '-' (p ++ optSuffix '-' (some x)) = x := textAfter_append hp2
      rw [this]; rfl

theorem zeroLed_iff (seg : Str) : zeroLed seg ↔ hasLeadingZero seg = true := by
  unfold zeroLed hasLeadingZero
  constructor
  · rintro ⟨r, hr, rfl⟩
    cases r with
    | nil => exact absurd rfl hr
    | cons c cs => simp
  · intro h
    cases seg with
    | nil => simp at h
    | cons c cs =>
      cases cs with
      | nil => simp at h
      | cons d ds =>
        simp at h
        exact ⟨d :: ds, by simp, by rw [h]⟩

theorem not_mem_textBefore (ch : Char) (s : Str) : ch ∉ textBefore ch s := by
  intro h
  have := List.mem_takeWhile_imp h
  simp at this

theorem textBefore_cons_textAfter {s : Str} {ch : Char} (h : ch ∈ s) :
    textBefore ch s ++ ch :: textAfter ch s = s := by
  induction s with
  | nil => simp at h
  | cons c cs ih =>
    by_cases hc : c = ch
    · subst hc
      simp [textBefore, textAfter]
    · have h2 : ch ∈ cs := by
        rcases List.mem_cons.1 h with h | h
        · exact absurd h.symm hc
        · exact h
      have e1 : textBefore ch (c :: cs) = c :: textBefore ch cs := by
        simp [textBefore, List.takeWhile_cons, hc]
      have e2 : textAfter ch (c :: cs) = textAfter ch cs := by
        simp [textAfter, List.dropWhile_cons, hc]
      rw [e1, e2, List.cons_append, ih h2]

theorem mem_of_mem_textBefore {s : Str} {ch c : Char} (h : c ∈ textBefore ch s) : c ∈ s :=
  (List.takeWhile_sublist _).subset h

theorem mem_of_mem_textAfter {s : Str} {ch c : Char} (h : c ∈ textAfter ch s) : c ∈ s :=
  (List.dropWhile_sublist _).subset (List.mem_of_mem_tail h)

/-- Every remainder reads as `p[-pre][+meta]` with `p` free of plus and minus
signs and `pre` free of plus signs. -/
theorem remainder_decomposes (t : Str) :
    ∃ (p : Str) (pre meta : Option Str), '+' ∉ p ∧ '-' ∉ p ∧ (∀ x, pre = some x → '+' ∉ x) ∧
      t = p ++ optSuffix '-' pre ++ optSuffix '+' meta := by
  have hu : '+' ∉ textBefore '+' t := not_mem_textBefore _ _
  refine ⟨textBefore '-' (textBefore '+' t),
    if '-' ∈ textBefore '+' t then some (textAfter '-' (textBefore '+' t)) else none,
    if '+' ∈ t then some (textAfter '+' t) else none,
    fun h => hu (mem_of_mem_textBefore h), not_mem_textBefore _ _, ?_, ?_⟩
  · intro x hx
    split_ifs at hx with h1
    injection hx with hx
    subst hx
    exact fun h => hu (mem_of_mem_textAfter h)
  · have e1 : textBefore '-' (textBefore '+' t) ++ optSuffix '-'
        (if '-' ∈ textBefore '+' t then some (textAfter '-' (textBefore '+' t)) else none)
        = textBefore '+' t := by
      by_cases h1 : '-' ∈ textBefore '+' t
      · rw [if_pos h1]
        exact textBefore_cons_textAfter h1
      · rw [if_neg h1, textBefore_of_not_mem h1]
        simp [optSuffix]
    rw [e1]
    by_cases h2 : '+' ∈ t
    · rw [if_pos h2]
      exact (textBefore_cons_textAfter h2).symm
    · rw [if_neg h2, textBefore_of_not_mem h2]
      simp [optSuffix]

theorem count_textAfter {s : Str} {sep : Char} (h : sep ∈ s) :
    s.count sep = (textAfter sep s).count sep + 1 := by
  induction s with
  | nil => simp at h
  | cons c cs ih =>
    by_cases hc : c = sep
    · subst hc
      simp [textAfter]
    · have h2 : sep ∈ cs := by
        rcases List.mem_cons.1 h with h | h
        · exact absurd h.symm hc
        · exact h
      have e : textAfter sep (c :: cs) = textAfter sep cs := by
        simp [textAfter, List.dropWhile_cons, hc]
      rw [e, List.count_cons_of_ne (fun e => hc e.symm), ih h2]

theorem genSplit_length (sep : Char) (n : Nat) (s : Str) (h : n ≤ s.count sep) :
    (genSplit s sep n).length = n + 1 := by
  induction n generalizing s with
  | zero => rfl
  | succ n ih =>
    have hmem : sep ∈ s := List.count_pos_iff.1 (by omega)
    rw [genSplit_succ, if_pos hmem, List.length_cons, ih]
    have := count_textAfter hmem
    omega

theorem Split_length (s : Str) (sep : Char) : (Split s sep).length = s.count sep + 1 :=
  genSplit_length sep _ s (le_refl _)

theorem Split_length_lt_three (s : Str) :
    (Split s '.').length < 3 ↔ ¬ ('.' ∈ s ∧ '.' ∈ textAfter '.' s) := by
  rw [Split_length]
  by_cases h1 : '.' ∈ s
  · have h2 := count_textAfter h1
    by_cases h3 : '.' ∈ textAfter '.' s
    · have := List.count_pos_iff.2 h3
      simp only [h1, h3, and_self, not_true_eq_false, iff_false]
      omega
    · have := List.count_eq_zero_of_not_mem h3
      simp only [h1, h3, and_false, not_false_eq_true, iff_true]
      omega
  · have := List.count_eq_zero_of_not_mem h1
    simp only [h1, false_and, not_false_eq_true, iff_true]
    omega

theorem Split_of_mem {s : Str} {sep : Char} (h : sep ∈ s) :
    Split s sep = textBefore sep s :: Split (textAfter sep s) sep := by
  unfold Split
  rw [count_textAfter h, genSplit_succ, if_pos h]

theorem Split_of_not_mem {s : Str} {sep : Char} (h : sep ∉ s) : Split s sep = [s] := by
  unfold Split
  rw [List.count_eq_zero_of_not_mem h]
  rfl

theorem Split_ne_singleton_nil {s : Str} (sep : Char) (h : s ≠ []) : Split s sep ≠ [[]] := by
  intro e
  by_cases hm : sep ∈ s
  · have := Split_length (textAfter sep s) sep
    rw [Split_of_mem hm] at e
    injection e with _ e
    rw [e] at this
    simp at this
  · rw [Split_of_not_mem hm] at e
    injection e with e _
    exact h e

theorem strLess_nil_right (x : Str) : strLess x [] = false := by
  cases x <;> rfl

theorem strLess_nil_left {x : Str} (h : x ≠ []) : strLess [] x = true := by
  cases x with
  | nil => exact absurd rfl h
  | cons c cs => rfl

theorem ParseVersion_fields (M m p : Str) (pre meta : Option Str)
    (hM : '.' ∉ M) (hm : '.' ∉ m) (hp1 : '+' ∉ p) (hp2 : '-' ∉ p)
    (hpre : ∀ x, pre = some x → '+' ∉ x) (v : Version)
    (h : ParseVersion (M ++ '.' :: m ++ '.' :: (p ++ optSuffix '-' pre ++ optSuffix '+' meta))
      = .ok v) :
    ParseInt M = some v.Major ∧ ParseInt m = some v.Minor ∧ ParseInt p = some v.Patch ∧
      v.PreRelease = optField pre ∧ v.Metadata = optField meta := by
  obtain ⟨e1, e2, e3⟩ := remainder_parts p pre meta hp1 hp2 hpre
  rw [ParseVersion_ok_iff, textBefore_dots _ _ _ hM, textAfter_dots _ _ _ hM,
    textBefore_append hm, textAfter_append hm, e1, e2, e3] at h
  exact h.2.2.2.2.2

/-- On parsed versions the release is never above its pre-releases: for texts
`M.m.p` and `M.m.p-pre` with a non-empty `pre`, both accepted, `Compare` of the
first against the second is `-1`. -/
theorem parsed_release_below_prerelease (M m p pre : Str)
    (hM : '.' ∉ M) (hm : '.' ∉ m) (hp1 : '+' ∉ p) (hp2 : '-' ∉ p) (hpre : '+' ∉ pre)
    (hne : pre ≠ []) (a b : Version)
    (ha : ParseVersion (M ++ '.' :: m ++ '.' :: p) = .ok a)
    (hb : ParseVersion (M ++ '.' :: m ++ '.' :: (p ++ '-' :: pre)) = .ok b) :
    Compare a b = -1 := by
  have ha2 := ParseVersion_fields M m p none none hM hm hp1 hp2 (by simp) a
    (by simpa [optSuffix] using ha)
  have hb2 := ParseVersion_fields M m p (some pre) none hM hm hp1 hp2
    (by intro x hx; injection hx with hx; exact hx ▸ hpre) b (by simpa [optSuffix] using hb)
  obtain ⟨a1, a2, a3, a4, -⟩ := ha2
  obtain ⟨b1, b2, b3, b4, -⟩ := hb2
  have e1 : a.Major = b.Major := Option.some.inj (a1.symm.trans b1)
  have e2 : a.Minor = b.Minor := Option.some.inj (a2.symm.trans b2)
  have e3 : a.Patch = b.Patch := Option.some.inj (a3.symm.trans b3)
  unfold Compare
  rw [compareLoop_three]
  simp only [e1, e2, e3, ne_eq, not_true_eq_false, if_false]
  unfold comparePreRelease
  rw [a4, b4]
  simp only [optField]
  have hs := Split_ne_singleton_nil '.' hne
  obtain ⟨h, rest, hsp⟩ : ∃ h rest, Split pre '.' = h :: rest := by
    have := Split_length pre '.'
    cases hsp : Split pre '.' with
    | nil => rw [hsp] at this; simp at this
    | cons h rest => exact ⟨h, rest, rfl⟩
  rw [hsp] at hs
  simp only [hsp]
  have hA : Atoi ([] : Str) = none := rfl
  by_cases hh : h = []
  · subst hh
    have hr : rest ≠ [] := fun e => hs (by rw [e])
    have hl : rest.length ≠ 0 := fun e => hr (List.length_eq_zero.1 e)
    simp [preReleaseLoop, hA, strLess, hl]
  · simp [preReleaseLoop, hA, strLess_nil_right, strLess_nil_left hh]

/-- Every text with at least two dots reads as `M.m.t` with dot-free `M`, `m`. -/
theorem text_decomposes (s : Str) (h : 3 ≤ (Split s '.').length) :
    ∃ M m t, '.' ∉ M ∧ '.' ∉ m ∧ s = M ++ '.' :: m ++ '.' :: t := by
  have h2 : ¬ (Split s '.').length < 3 := by omega
  rw [Split_length_lt_three, not_not] at h2
  refine ⟨textBefore '.' s, textBefore '.' (textAfter '.' s), textAfter '.' (textAfter '.' s),
    not_mem_textBefore _ _, not_mem_textBefore _ _, ?_⟩
  rw [List.append_assoc, List.cons_append, textBefore_cons_textAfter h2.2,
    textBefore_cons_textAfter h2.1]

theorem ParseVersion_isOk_iff (s : Str) :
    (∃ v, ParseVersion s = .ok v) ↔
      '.' ∈ s ∧ '.' ∈ textAfter '.' s ∧
        ∀ seg ∈ numericSegments s, hasLeadingZero seg = false ∧ ∃ z, ParseInt seg = some z := by
  rw [numericSegments_eq]
  constructor
  · rintro ⟨v, hv⟩
    obtain ⟨h1, h2, z1, z2, z3, p1, p2, p3, -, -⟩ := (ParseVersion_ok_iff s v).1 hv
    refine ⟨h1, h2, ?_⟩
    intro seg hseg
    simp only [List.mem_cons, List.mem_singleton, List.not_mem_nil, or_false] at hseg
    rcases hseg with rfl | rfl | rfl
    · exact ⟨z1, _, p1⟩
    · exact ⟨z2, _, p2⟩
    · exact ⟨z3, _, p3⟩
  · rintro ⟨h1, h2, h⟩
    obtain ⟨z1, x, p1⟩ := h _ (List.mem_cons_self _ _)
    obtain ⟨z2, y, p2⟩ := h _ (List.mem_cons_of_mem _ (List.mem_cons_self _ _))
    obtain ⟨z3, z, p3⟩ := h _
      (List.mem_cons_of_mem _ (List.mem_cons_of_mem _ (List.mem_cons_self _ _)))
    exact ⟨⟨x, y, z, _, _⟩, (ParseVersion_ok_iff s _).2 ⟨h1, h2, z1, z2, z3, p1, p2, p3, rfl, rfl⟩⟩

theorem ParseVersion_error_iff (s : Str) :
    ParseVersion s = .error Error.ErrInvalidFormat ↔ ¬ ∃ v, ParseVersion s = .ok v := by
  cases h : ParseVersion s with
  | error e =>
    have := ParseVersion_error s e h
    subst this
    simp
  | ok v => simp

/-! ## Lemmas on constraints and rendering -/

theorem Equals_comm (a b : Version) : Equals a b = Equals b a := by
  unfold Equals
  rw [Compare_swap a b]
  by_cases h : Compare b a = 0
  · simp [h]
  · have : ¬ -Compare b a = 0 := fun e => h (by omega)
    simp [h, this]

theorem preReleaseLoop_append_same (pfx l1 l2 : List Str) :
    preReleaseLoop (pfx ++ l1) (pfx ++ l2) = preReleaseLoop l1 l2 := by
  induction pfx with
  | nil => rfl
  | cons x xs ih =>
    simp only [List.cons_append, preReleaseLoop]
    cases h : Atoi x <;> simp [strLess_irrefl, ih]

theorem isAlphaNumeric_no_dot {s : Str} (h : isAlphaNumeric s = true) : '.' ∉ s := by
  intro hm
  unfold isAlphaNumeric at h
  rw [List.all_eq_true] at h
  have := h '.' hm
  revert this
  decide

theorem dot_mem_Join (a b : Str) (rest : List Str) : '.' ∈ Join (a :: b :: rest) ['.'] := by
  simp [Join]

theorem strSuffix_of_two_le (ids : List Str) (h : 2 ≤ ids.length) (marker : Char) :
    (if (if ids.length > 0 then Join ids ['.'] else []).length > 0 ∧
        isAlphaNumeric (if ids.length > 0 then Join ids ['.'] else []) = true
      then marker :: (if ids.length > 0 then Join ids ['.'] else []) else []) = [] := by
  match ids, h with
  | a :: b :: rest, _ =>
    have hd := dot_mem_Join a b rest
    have hn : ¬ isAlphaNumeric (Join (a :: b :: rest) ['.']) = true :=
      fun e => isAlphaNumeric_no_dot e hd
    simp [hn]

/-! ## Lemmas on the reference ordering -/

theorem cmpInt_ne_zero_of_lt {x y : Int} (h : x < y) : cmpInt x y = -1 := by
  simp [cmpInt, h]

theorem cmpInt_of_gt {x y : Int} (h : y < x) : cmpInt x y = 1 := by
  have : ¬ x < y := not_lt.2 (le_of_lt h)
  simp [cmpInt, h, this]

theorem cmpInt_self (x : Int) : cmpInt x x = 0 := by
  simp [cmpInt]

theorem numeralValue_eq_some (seg : Str) (z : Int) :
    numeralValue seg = some z ↔ int64Numeral seg z := by
  unfold numeralValue int64Numeral
  cases seg with
  | nil =>
    simp only [List.head?_nil, reduceCtorEq, or_self, if_false, ne_eq, not_true_eq_false,
      false_and, false_iff]
    rintro ⟨ds, h1, -, (⟨h | h, -⟩ | h)⟩
    · exact h1 h.symm
    · exact h
    · exact h
  | cons c cs =>
    by_cases hm : c = '-'
    · subst hm
      simp only [List.head?_cons, true_or, if_true, List.tail_cons, List.all_eq_true]
      constructor
      · intro h
        split_ifs at h with h1
        injection h with h
        exact ⟨cs, h1.1, h1.2.1, Or.inr ⟨rfl, h.symm, h ▸ h1.2.2.1⟩⟩
      · rintro ⟨ds, h1, h2, (⟨h | h, h3⟩ | ⟨h, h3, h4⟩)⟩
        · subst h
          exact absurd (h2 '-' (List.mem_cons_self _ _)) (by decide)
        · injection h with h _
          exact absurd h (by decide)
        · injection h with _ h
          subst h
          subst h3
          have hneg : -(decimalFrom 0 cs : Int) < 2 ^ 63 := by
            have : (0 : Int) ≤ (decimalFrom 0 cs : Int) := Int.ofNat_nonneg _
            omega
          rw [if_pos ⟨h1, h2, h4, hneg⟩]
    · by_cases hp : c = '+'
      · subst hp
        have hne : ¬ (some '+' = some '-') := by decide
        simp only [List.head?_cons, hne, false_or, if_true, if_false, List.tail_cons,
          List.all_eq_true]
        constructor
        · intro h
          split_ifs at h with h1
          injection h with h
          exact ⟨cs, h1.1, h1.2.1, Or.inl ⟨Or.inr rfl, h.symm, h ▸ h1.2.2.2⟩⟩
        · rintro ⟨ds, h1, h2, (⟨h | h, h3, h4⟩ | ⟨h, -⟩)⟩
          · subst h
            exact absurd (h2 '+' (List.mem_cons_self _ _)) (by decide)
          · injection h with _ h
            subst h
            subst h3
            have hnn : -(2 ^ 63 : Int) ≤ (decimalFrom 0 cs : Int) := by
              have : (0 : Int) ≤ (decimalFrom 0 cs : Int) := Int.ofNat_nonneg _
              omega
            rw [if_pos ⟨h1, h2, hnn, h4⟩]
          · injection h with h _
            exact absurd h (by decide)
      · have hne1 : ¬ (some c = some '-') := fun e => hm (Option.some.inj e)
        have hne2 : ¬ (some c = some '+') := fun e => hp (Option.some.inj e)
        simp only [List.head?_cons, hne1, hne2, or_self, if_false, List.all_eq_true]
        constructor
        · intro h
          split_ifs at h with h1
          injection h with h
          exact ⟨c :: cs, h1.1, h1.2.1, Or.inl ⟨Or.inl rfl, h.symm, h ▸ h1.2.2.2⟩⟩
        · rintro ⟨ds, h1, h2, (⟨h | h, h3, h4⟩ | ⟨h, -⟩)⟩
          · subst h
            subst h3
            have hnn : -(2 ^ 63 : Int) ≤ (decimalFrom 0 (c :: cs) : Int) := by
              have : (0 : Int) ≤ (decimalFrom 0 (c :: cs) : Int) := Int.ofNat_nonneg _
              omega
            rw [if_pos ⟨h1, h2, hnn, h4⟩]
          · injection h with h _
            exact absurd h hp
          · injection h with h _
            exact absurd h hm

theorem Atoi_eq_numeralValue (seg : Str) : Atoi seg = numeralValue seg := by
  unfold Atoi
  cases h : numeralValue seg with
  | some z => exact (ParseInt_eq_some seg z).2 ((numeralValue_eq_some seg z).1 h)
  | none =>
    cases h2 : ParseInt seg with
    | none => rfl
    | some z =>
      have := (numeralValue_eq_some seg z).2 ((ParseInt_eq_some seg z).1 h2)
      rw [h] at this
      cases this

theorem cmpIdent_eq (x y : Str) :
    cmpIdent x y =
      match Atoi x, Atoi y with
      | some n1, some n2 => cmpInt n1 n2
      | _, _ => if strLess x y = true then -1 else if strLess y x = true then 1 else 0 := by
  unfold cmpIdent
  simp only [Atoi_eq_numeralValue, strLess_iff_lex]

theorem preReleaseLoop_eq_find (a b : List Str) :
    preReleaseLoop a b = (List.zipWith cmpIdent a b).find? (fun r => decide (r ≠ 0)) := by
  induction a generalizing b with
  | nil => cases b <;> simp [preReleaseLoop]
  | cons x xs ih =>
    cases b with
    | nil => simp [preReleaseLoop]
    | cons y ys =>
      have hstr : (if strLess y x = true then some (1 : Int)
            else if strLess x y = true then some (-1) else preReleaseLoop xs ys) =
          List.find? (fun r => decide (r ≠ 0))
            ((if strLess x y = true then (-1 : Int) else if strLess y x = true then 1 else 0) ::
              List.zipWith cmpIdent xs ys) := by
        cases hxy : strLess x y
        · cases hyx : strLess y x
          · simp [ih]
          · simp
        · simp [strLess_asymm hxy]
      simp only [preReleaseLoop, List.zipWith_cons_cons, cmpIdent_eq]
      cases h1 : Atoi x with
      | none => cases h2 : Atoi y <;> simpa using hstr
      | some n1 =>
        cases h2 : Atoi y with
        | none => simpa using hstr
        | some n2 =>
          simp only
          rcases lt_trichotomy n1 n2 with h | h | h
          · have h3 : ¬ n1 > n2 := not_lt.2 (le_of_lt h)
            simp [cmpInt_ne_zero_of_lt h, h, h3]
          · subst h
            simp [cmpInt_self, ih]
          · have h3 : ¬ n1 < n2 := not_lt.2 (le_of_lt h)
            simp [cmpInt_of_gt h, h, h3]

theorem compareLoop_eq_find (a b c x y z : Int) :
    compareLoop [a, b, c] [x, y, z] =
      [cmpInt a x, cmpInt b y, cmpInt c z].find? (fun r => decide (r ≠ 0)) := by
  have key : ∀ (u w : Int) (rest : List Int) (k : Option Int),
      k = rest.find? (fun r => decide (r ≠ 0)) →
      (if u ≠ w then (if u > w then some (1 : Int) else some (-1)) else k) =
        (cmpInt u w :: rest).find? (fun r => decide (r ≠ 0)) := by
    intro u w rest k hk
    rcases lt_trichotomy u w with h | h | h
    · have h1 : u ≠ w := ne_of_lt h
      have h3 : ¬ u > w := not_lt.2 (le_of_lt h)
      simp [cmpInt_ne_zero_of_lt h, h1, h3]
    · subst h
      simp [cmpInt_self, hk]
    · have h1 : u ≠ w := ne_of_gt h
      simp [cmpInt_of_gt h, h1, h]
  simp only [compareLoop]
  exact key a x _ _ (key b y _ _ (key c z _ _ rfl))

theorem comparePreRelease_eq_ref (a b : Version) :
    comparePreRelease a b =
      if a.PreRelease = [] ∧ b.PreRelease = [] then 0
      else if a.PreRelease = [] then 1
      else if b.PreRelease = [] then -1
      else
        match (List.zipWith cmpIdent a.PreRelease b.PreRelease).find?
            (fun r => decide (r ≠ 0)) with
        | some r => r
        | none => cmpInt a.PreRelease.length b.PreRelease.length := by
  unfold comparePreRelease
  rw [preReleaseLoop_eq_find]
  by_cases ha : a.PreRelease = []
  · by_cases hb : b.PreRelease = []
    · simp [ha, hb]
    · have : 0 < b.PreRelease.length := List.length_pos.2 hb
      simp [ha, hb, this]
  · by_cases hb : b.PreRelease = []
    · have : 0 < a.PreRelease.length := List.length_pos.2 ha
      simp [ha, hb, this]
    · have h1 : ¬ a.PreRelease.length = 0 := fun e => ha (List.length_eq_zero.1 e)
      have h2 : ¬ b.PreRelease.length = 0 := fun e => hb (List.length_eq_zero.1 e)
      simp only [ha, hb, h1, h2, false_and, and_false, if_false]
      cases List.find? (fun r => decide (r ≠ 0))
          (List.zipWith cmpIdent a.PreRelease b.PreRelease) with
      | some r => rfl
      | none =>
        simp only [cmpInt]
        rcases lt_trichotomy a.PreRelease.length b.PreRelease.length with h | h | h
        · have h3 : ¬ a.PreRelease.length = b.PreRelease.length := ne_of_lt h
          have h4 : ¬ a.PreRelease.length > b.PreRelease.length := not_lt.2 (le_of_lt h)
          simp [h, h3, h4]
        · simp [h]
        · have h3 : ¬ a.PreRelease.length = b.PreRelease.length := ne_of_gt h
          have h4 : ¬ a.PreRelease.length < b.PreRelease.length := not_lt.2 (le_of_lt h)
          simp [h, h3, h4]

/-! ## Lemmas on constraint parsing -/

theorem isOperator_eq (c : Char) : isOperator c = (c == '=' || c == '>' || c == '<') := by
  have e : "=><".toList = ['=', '>', '<'] := rfl
  unfold isOperator
  rw [e]
  simp only [List.contains, List.elem]
  cases c == '=' <;> cases c == '>' <;> cases c == '<' <;> rfl

theorem scanOperator_eq (s : Str) : scanOperator s = leadingOperatorRun s := by
  unfold leadingOperatorRun
  induction s with
  | nil => rfl
  | cons c cs ih =>
    simp only [scanOperator, List.takeWhile_cons, isOperator_eq, ih]
    cases (c == '=' || c == '>' || c == '<') <;> simp

theorem selectOperator_of_mem {op : Str} (h : op ∈ validOperators) : selectOperator op = op := by
  simp only [validOperators, List.mem_cons, List.mem_singleton, List.not_mem_nil, or_false] at h
  rcases h with rfl | rfl | rfl | rfl | rfl <;> decide

theorem selectOperator_of_not_mem {op : Str} (h : op ∉ validOperators) :
    selectOperator op = [] := by
  simp only [validOperators, List.mem_cons, List.mem_singleton, List.not_mem_nil, or_false,
    not_or] at h
  obtain ⟨h1, h2, h3, h4, h5⟩ := h
  have g1 : ¬ ['='] = op := fun e => h1 e.symm
  have g2 : ¬ ['>'] = op := fun e => h2 e.symm
  have g3 : ¬ ['<'] = op := fun e => h3 e.symm
  have g4 : ¬ ['>', '='] = op := fun e => h4 e.symm
  have g5 : ¬ ['<', '='] = op := fun e => h5 e.symm
  simp only [selectOperator, List.foldl, g1, g2, g3, g4, g5, if_false]

theorem ne_nil_of_mem_validOperators {op : Str} (h : op ∈ validOperators) : op ≠ [] := by
  simp only [validOperators, List.mem_cons, List.mem_singleton, List.not_mem_nil, or_false] at h
  rcases h with rfl | rfl | rfl | rfl | rfl <;> decide

theorem ParseConstraint_eq (s : Str) :
    ParseConstraint s =
      if leadingOperatorRun s ∈ validOperators then
        match ParseVersion (s.drop (leadingOperatorRun s).length) with
        | .error err => .error err
        | .ok v => .ok { Operator := leadingOperatorRun s, Version := v }
      else .error Error.ErrInvalidOperator := by
  unfold ParseConstraint
  simp only [scanOperator_eq]
  by_cases h : leadingOperatorRun s ∈ validOperators
  · have h0 : ¬ (leadingOperatorRun s).length = 0 :=
      fun e => ne_nil_of_mem_validOperators h (List.length_eq_zero.1 e)
    rw [selectOperator_of_mem h]
    simp only [h, h0, if_true, if_false]
  · rw [selectOperator_of_not_mem h]
    simp [h]

theorem leadingOperatorRun_append {op r : Str} (hop : op ∈ validOperators)
    (hr : ∀ c, r.head? = some c → c ≠ '=' ∧ c ≠ '>' ∧ c ≠ '<') :
    leadingOperatorRun (op ++ r) = op := by
  have hnil : leadingOperatorRun r = [] := by
    cases r with
    | nil => rfl
    | cons c cs =>
      obtain ⟨h1, h2, h3⟩ := hr c rfl
      simp [leadingOperatorRun, List.takeWhile_cons, h1, h2, h3]
  unfold leadingOperatorRun at hnil ⊢
  simp only [validOperators, List.mem_cons, List.mem_singleton, List.not_mem_nil, or_false] at hop
  rcases hop with rfl | rfl | rfl | rfl | rfl <;> simp [List.takeWhile_cons, hnil]

/-! ## Lemmas on the reference rendering -/

theorem mem_alphaNumericChars_isIdentChar :
    ∀ c ∈ alphaNumericChars, isIdentChar c = true := by
  decide

set_option maxRecDepth 100000 in
theorem ofNat_mem_alphaNumericChars : ∀ n < 123,
    (48 ≤ n ∧ n ≤ 57 ∨ 65 ≤ n ∧ n ≤ 90 ∨ 97 ≤ n ∧ n ≤ 122 ∨ n = 45) →
      alphaNumericChars.contains (Char.ofNat n) = true := by
  decide

theorem isIdentChar_toNat (c : Char) (h : isIdentChar c = true) :
    c.toNat < 123 ∧ (48 ≤ c.toNat ∧ c.toNat ≤ 57 ∨ 65 ≤ c.toNat ∧ c.toNat ≤ 90 ∨
      97 ≤ c.toNat ∧ c.toNat ≤ 122 ∨ c.toNat = 45) := by
  simp only [isIdentChar, Char.isDigit, Char.isAlpha, Char.isUpper, Char.isLower,
    Bool.or_eq_true, Bool.and_eq_true, decide_eq_true_eq, beq_iff_eq] at h
  rcases h with (⟨h1, h2⟩ | (⟨h1, h2⟩ | ⟨h1, h2⟩)) | h
  · have a1 : 48 ≤ c.toNat := h1
    have a2 : c.toNat ≤ 57 := h2
    omega
  · have a1 : 65 ≤ c.toNat := h1
    have a2 : c.toNat ≤ 90 := h2
    omega
  · have a1 : 97 ≤ c.toNat := h1
    have a2 : c.toNat ≤ 122 := h2
    omega
  · subst h
    decide

theorem contains_alphaNumericChars (c : Char) :
    alphaNumericChars.contains c = isIdentChar c := by
  cases h : isIdentChar c with
  | true =>
    obtain ⟨h1, h2⟩ := isIdentChar_toNat c h
    have := ofNat_mem_alphaNumericChars c.toNat h1 h2
    rwa [Char.ofNat_toNat] at this
  | false =>
    cases h2 : alphaNumericChars.contains c with
    | false => rfl
    | true =>
      have hm : c ∈ alphaNumericChars := by simpa using h2
      rw [mem_alphaNumericChars_isIdentChar c hm] at h
      cases h

theorem isAlphaNumeric_eq (s : Str) : isAlphaNumeric s = s.all isIdentChar := by
  unfold isAlphaNumeric
  congr 1
  funext c
  exact contains_alphaNumericChars c

theorem Join_eq_intercalate (ids : List Str) (sep : Str) :
    Join ids sep = List.intercalate sep ids := by
  induction ids with
  | nil => rfl
  | cons a rest ih =>
    cases rest with
    | nil => simp [Join, List.intercalate]
    | cons b rest2 =>
      simp only [Join, ih]
      simp [List.intercalate, List.intersperse]

theorem strSuffix_eq_ref (ids : List Str) (marker : Char) :
    (if (if ids.length > 0 then Join ids ['.'] else []).length > 0 ∧
        isAlphaNumeric (if ids.length > 0 then Join ids ['.'] else []) = true
      then marker :: (if ids.length > 0 then Join ids ['.'] else []) else []) =
      suffixRef marker ids := by
  have e : (if ids.length > 0 then Join ids ['.'] else []) = List.intercalate ['.'] ids := by
    cases ids with
    | nil => rfl
    | cons a rest => simp [Join_eq_intercalate]
  rw [e]
  unfold suffixRef
  simp only [isAlphaNumeric_eq, List.length_pos]

/-- The model of the `%d` verb is the standard decimal rendering of an integer. -/
theorem formatInt_eq_toString (i : Int) : formatInt i = (toString i).toList := by
  cases i with
  | ofNat m =>
    have h : ¬ (Int.ofNat m < 0) := not_lt.2 (Int.ofNat_nonneg m)
    unfold formatInt
    rw [if_neg h]
    rfl
  | negSucc m =>
    have h : Int.negSucc m < 0 := Int.negSucc_lt_zero m
    unfold formatInt
    rw [if_pos h]
    rfl

theorem String_eq_ref (v : Version) : String v = StringRef v := by
  unfold String StringRef strPreRelease strMetadata
  simp only [strSuffix_eq_ref, ← formatInt_eq_toString, List.append_assoc,
    List.singleton_append, List.cons_append, List.nil_append]

/-! ## Lemmas on decimal formatting -/

theorem digitChar_isDigit (k : Nat) (h : k < 10) : (Nat.digitChar k).isDigit = true := by
  interval_cases k <;> decide

theorem digitChar_toNat (k : Nat) (h : k < 10) : (Nat.digitChar k).toNat - 48 = k := by
  interval_cases k <;> decide

theorem digitChar_eq_zero (k : Nat) (h : k < 10) (h0 : Nat.digitChar k = '0') : k = 0 := by
  have := digitChar_toNat k h
  rw [h0] at this
  exact this.symm

theorem decimalFrom_append_singleton (n : Nat) (ds : Str) (d : Char) :
    decimalFrom n (ds ++ [d]) = decimalFrom n ds * 10 + (d.toNat - 48) := by
  simp [decimalFrom, List.foldl_append]

theorem toDigitsCore_spec (n : Nat) : ∀ fuel, n < fuel → ∀ acc : List Char,
    ∃ ds : Str, Nat.toDigitsCore 10 fuel n acc = ds ++ acc ∧ ds ≠ [] ∧
      (∀ c ∈ ds, c.isDigit = true) ∧ decimalFrom 0 ds = n ∧
      (ds.head? = some '0' → ds.length = 1) := by
  induction n using Nat.strong_induction_on with
  | _ n ih =>
    intro fuel hf acc
    cases fuel with
    | zero => omega
    | succ fuel =>
      have hmod : n % 10 < 10 := Nat.mod_lt _ (by decide)
      simp only [Nat.toDigitsCore]
      by_cases h0 : n / 10 = 0
      · have hn : n % 10 = n := by omega
        refine ⟨[Nat.digitChar (n % 10)], by simp [h0], by simp, ?_, ?_, fun _ => rfl⟩
        · intro c hc
          rw [List.mem_singleton.1 hc]
          exact digitChar_isDigit _ hmod
        · simp only [decimalFrom, List.foldl_cons, List.foldl_nil]
          rw [digitChar_toNat _ hmod]
          omega
      · have hlt : n / 10 < n := by omega
        obtain ⟨ds, e, hne, hd, hv, hh⟩ :=
          ih (n / 10) hlt fuel (by omega) (Nat.digitChar (n % 10) :: acc)
        refine ⟨ds ++ [Nat.digitChar (n % 10)], by simp [h0, e], by simp, ?_, ?_, ?_⟩
        · intro c hc
          rcases List.mem_append.1 hc with hc | hc
          · exact hd c hc
          · rw [List.mem_singleton.1 hc]
            exact digitChar_isDigit _ hmod
        · rw [decimalFrom_append_singleton, hv, digitChar_toNat _ hmod]
          omega
        · intro h
          exfalso
          cases ds with
          | nil => exact hne rfl
          | cons c cs =>
            simp only [List.cons_append, List.head?_cons, Option.some.injEq] at h
            subst h
            have hl := hh rfl
            have hcs : cs = [] := by
              cases cs with
              | nil => rfl
              | cons _ _ => simp at hl
            subst hcs
            have : decimalFrom 0 ['0'] = 0 := by decide
            rw [this] at hv
            exact h0 hv.symm

theorem toDigits_spec (n : Nat) :
    Nat.toDigits 10 n ≠ [] ∧ (∀ c ∈ Nat.toDigits 10 n, c.isDigit = true) ∧
      decimalFrom 0 (Nat.toDigits 10 n) = n ∧
      ((Nat.toDigits 10 n).head? = some '0' → (Nat.toDigits 10 n).length = 1) := by
  obtain ⟨ds, e, hne, hd, hv, hh⟩ := toDigitsCore_spec n (n + 1) (Nat.lt_succ_self n) []
  have e2 : Nat.toDigits 10 n = ds := by
    unfold Nat.toDigits
    rw [e, List.append_nil]
  rw [e2]
  exact ⟨hne, hd, hv, hh⟩

theorem not_mem_of_all_isDigit {ds : Str} (h : ∀ c ∈ ds, c.isDigit = true) {ch : Char}
    (hch : ch.isDigit = false) : ch ∉ ds := by
  intro hm
  rw [h ch hm] at hch
  cases hch

theorem formatInt_of_nonneg {i : Int} (h : 0 ≤ i) : formatInt i = Nat.toDigits 10 i.toNat := by
  unfold formatInt
  rw [if_neg (not_lt.2 h)]

theorem formatInt_parse {i : Int} (h0 : 0 ≤ i) (h1 : i < 2 ^ 63) :
    ParseInt (formatInt i) = some i ∧ hasLeadingZero (formatInt i) = false ∧
      '.' ∉ formatInt i ∧ '+' ∉ formatInt i ∧ '-' ∉ formatInt i := by
  rw [formatInt_of_nonneg h0]
  obtain ⟨hne, hd, hv, hh⟩ := toDigits_spec i.toNat
  refine ⟨?_, ?_, not_mem_of_all_isDigit hd (by decide), not_mem_of_all_isDigit hd (by decide),
    not_mem_of_all_isDigit hd (by decide)⟩
  · rw [ParseInt_eq_some]
    refine ⟨Nat.toDigits 10 i.toNat, hne, hd, Or.inl ⟨Or.inl rfl, ?_, h1⟩⟩
    rw [hv]
    omega
  · cases hz : hasLeadingZero (Nat.toDigits 10 i.toNat) with
    | false => rfl
    | true =>
      unfold hasLeadingZero at hz
      simp only [Bool.and_eq_true, decide_eq_true_eq] at hz
      have := hh hz.2
      omega

theorem isAlphaNumeric_not_mem {s : Str} (h : isAlphaNumeric s = true) {c : Char}
    (hc : isIdentChar c = false) : c ∉ s := by
  intro hm
  rw [isAlphaNumeric_eq, List.all_eq_true] at h
  rw [h c hm] at hc
  cases hc

theorem strSuffix_as_opt (ids : List Str) (marker : Char) :
    ∃ o : Option Str,
      (if (if ids.length > 0 then Join ids ['.'] else []).length > 0 ∧
          isAlphaNumeric (if ids.length > 0 then Join ids ['.'] else []) = true
        then marker :: (if ids.length > 0 then Join ids ['.'] else []) else []) =
        optSuffix marker o ∧
      ∀ j, o = some j → j ≠ [] ∧ isAlphaNumeric j = true := by
  by_cases h : (if ids.length > 0 then Join ids ['.'] else []).length > 0 ∧
      isAlphaNumeric (if ids.length > 0 then Join ids ['.'] else []) = true
  · refine ⟨some (if ids.length > 0 then Join ids ['.'] else []), by rw [if_pos h]; rfl, ?_⟩
    intro j hj
    injection hj with hj
    subst hj
    exact ⟨List.length_pos.1 h.1, h.2⟩
  · exact ⟨none, by rw [if_neg h]; rfl, fun j hj => by cases hj⟩

theorem strSuffix_optField (o : Option Str) (marker : Char)
    (ho : ∀ j, o = some j → j ≠ [] ∧ isAlphaNumeric j = true) :
    (if (if (optField o).length > 0 then Join (optField o) ['.'] else []).length > 0 ∧
        isAlphaNumeric (if (optField o).length > 0 then Join (optField o) ['.'] else []) = true
      then marker :: (if (optField o).length > 0 then Join (optField o) ['.'] else [])
      else []) = optSuffix marker o := by
  cases o with
  | none => rfl
  | some j =>
    obtain ⟨h1, h2⟩ := ho j rfl
    have hs : optField (some j) = [j] := Split_of_not_mem (isAlphaNumeric_no_dot h2)
    have hl : 0 < j.length := List.length_pos.2 h1
    rw [hs]
    simp [Join, hl, h2, optSuffix]

theorem ParseVersion_of_parts (M m p : Str) (pre meta : Option Str)
    (hM : '.' ∉ M) (hm : '.' ∉ m) (hp1 : '+' ∉ p) (hp2 : '-' ∉ p)
    (hpre : ∀ x, pre = some x → '+' ∉ x) (x y z : Int)
    (z1 : hasLeadingZero M = false) (z2 : hasLeadingZero m = false)
    (z3 : hasLeadingZero p = false)
    (p1 : ParseInt M = some x) (p2 : ParseInt m = some y) (p3 : ParseInt p = some z) :
    ParseVersion (M ++ '.' :: m ++ '.' :: (p ++ optSuffix '-' pre ++ optSuffix '+' meta)) =
      .ok ⟨x, y, z, optField pre, optField meta⟩ := by
  obtain ⟨e1, e2, e3⟩ := remainder_parts p pre meta hp1 hp2 hpre
  rw [ParseVersion_ok_iff, textBefore_dots _ _ _ hM, textAfter_dots _ _ _ hM,
    textBefore_append hm, textAfter_append hm, e1, e2, e3]
  exact ⟨by simp, by simp, z1, z2, z3, p1, p2, p3, rfl, rfl⟩

/-! ## The claims -/

/-- C1 (round trip `ParseVersion` then `String`), evaluated at the input of the
package's own parsing test: the text `1.2.3-beta.4+20150505.1` is well formed
and parses to the expected five fields, but rendering the parsed version gives
`1.2.3`, not the input, because the joined suffixes contain the dot that
`isAlphaNumeric` does not allow. -/
theorem C1_round_trip_fails_on_dotted_suffix :
    ParseVersion "1.2.3-beta.4+20150505.1".toList =
        .ok ⟨1, 2, 3, ["beta".toList, "4".toList], ["20150505".toList, "1".toList]⟩ ∧
      String ⟨1, 2, 3, ["beta".toList, "4".toList], ["20150505".toList, "1".toList]⟩ =
        "1.2.3".toList ∧
      (ParseVersion "1.2.3-beta.4+20150505.1".toList).map String ≠
        .ok "1.2.3-beta.4+20150505.1".toList := by
  decide

/-- C2 (a release outranks its pre-releases, on parsed versions), evaluated at
`1.0.0` and `1.0.0-alpha`: both parse, the release is parsed with the
one-element pre-release sequence holding the empty text, and `Compare` of the
release against the pre-release returns `-1`, so `GreaterThan` is false. -/
theorem C2_parsed_release_below_prerelease :
    ParseVersion "1.0.0".toList = .ok ⟨1, 0, 0, [[]], [[]]⟩ ∧
      ParseVersion "1.0.0-alpha".toList = .ok ⟨1, 0, 0, ["alpha".toList], [[]]⟩ ∧
      Compare ⟨1, 0, 0, [[]], [[]]⟩ ⟨1, 0, 0, ["alpha".toList], [[]]⟩ = -1 ∧
      GreaterThan ⟨1, 0, 0, [[]], [[]]⟩ ⟨1, 0, 0, ["alpha".toList], [[]]⟩ = false := by
  decide

/-- C3 (transitivity of `Compare`), evaluated at the pre-release sequences
`9`, `10` and `1a` on the same numeric triple: the first is below the second
(compared as integers), the second is below the third (compared as text),
yet the first is above the third (compared as text). -/
theorem C3_compare_not_transitive_on_mixed_identifiers :
    Compare ⟨1, 0, 0, ["9".toList], []⟩ ⟨1, 0, 0, ["10".toList], []⟩ = -1 ∧
      Compare ⟨1, 0, 0, ["10".toList], []⟩ ⟨1, 0, 0, ["1a".toList], []⟩ = -1 ∧
      Compare ⟨1, 0, 0, ["9".toList], []⟩ ⟨1, 0, 0, ["1a".toList], []⟩ = 1 := by
  decide

/-- C4: `Compare` is antisymmetric, that is, swapping the arguments negates
the result, and every version compares equal to itself. -/
theorem C4_compare_antisymmetric (a b : Version) :
    Compare a b = -(Compare b a) ∧ Compare a a = 0 :=
  ⟨Compare_swap a b, Compare_self a⟩

/-- C5: metadata never affects ordering. Replacing the metadata of both
arguments leaves `Compare`, `Equals`, `GreaterThan`, `LessThan` and, for every
operator, `Match` unchanged; the parsed `1.0.0+build1` equals the parsed
`1.0.0+build2`. -/
theorem C5_metadata_ignored (a b : Version) (m1 m2 : List Str) (op : Str) :
    Compare { a with Metadata := m1 } { b with Metadata := m2 } = Compare a b ∧
      Equals { a with Metadata := m1 } { b with Metadata := m2 } = Equals a b ∧
      GreaterThan { a with Metadata := m1 } { b with Metadata := m2 } = GreaterThan a b ∧
      LessThan { a with Metadata := m1 } { b with Metadata := m2 } = LessThan a b ∧
      Match ⟨op, { a with Metadata := m1 }⟩ { b with Metadata := m2 } = Match ⟨op, a⟩ b ∧
      (ParseVersion "1.0.0+build1".toList).bind (fun x =>
        (ParseVersion "1.0.0+build2".toList).map (fun y => Equals x y)) = .ok true := by
  refine ⟨rfl, rfl, rfl, rfl, rfl, by decide⟩

/-- C6: field extraction by `ParseVersion`. For a text made of a first segment
`M` and a second segment `m` (neither containing a dot) followed by a
remainder consisting of `p` (free of plus and minus signs), an optional
pre-release introduced by the first minus sign (its text free of plus signs)
and an optional metadata introduced by the first plus sign, parsing succeeds
with `v` exactly when no numeric segment has a leading zero, `M`, `m`, `p`
parse to `Major`, `Minor`, `Patch`, `PreRelease` is the pre-release text split
on dots and `Metadata` is the metadata text split on dots, an absent part
giving the one-element sequence holding the empty text. -/
theorem C6_field_extraction (M m p : Str) (pre meta : Option Str)
    (hM : '.' ∉ M) (hm : '.' ∉ m) (hp1 : '+' ∉ p) (hp2 : '-' ∉ p)
    (hpre : ∀ x, pre = some x → '+' ∉ x) (v : Version) :
    ParseVersion (M ++ '.' :: m ++ '.' :: (p ++ optSuffix '-' pre ++ optSuffix '+' meta)) = .ok v ↔
      hasLeadingZero M = false ∧ hasLeadingZero m = false ∧ hasLeadingZero p = false ∧
      ParseInt M = some v.Major ∧ ParseInt m = some v.Minor ∧ ParseInt p = some v.Patch ∧
      v.PreRelease = optField pre ∧ v.Metadata = optField meta := by
  obtain ⟨e1, e2, e3⟩ := remainder_parts p pre meta hp1 hp2 hpre
  rw [ParseVersion_ok_iff, textBefore_dots _ _ _ hM, textAfter_dots _ _ _ hM,
    textBefore_append hm, textAfter_append hm, e1, e2, e3]
  have h1 : '.' ∈ M ++ '.' :: m ++ '.' :: (p ++ optSuffix '-' pre ++ optSuffix '+' meta) := by
    simp
  have h2 : '.' ∈ m ++ '.' :: (p ++ optSuffix '-' pre ++ optSuffix '+' meta) := by simp
  simp only [h1, h2, true_and]

/-- C6 at the two texts the claim names: `1.0.0+build-1` has the pre-release
sequence holding the empty text and the metadata `build-1`, and
`1.2.3-beta.4+20150505.1` parses to `1`, `2`, `3`, `beta`, `4` and
`20150505`, `1`. -/
theorem C6_field_extraction_witness :
    ParseVersion ("1".toList ++ '.' :: "0".toList ++ '.' ::
        ("0".toList ++ optSuffix '-' none ++ optSuffix '+' (some "build-1".toList))) =
      .ok ⟨1, 0, 0, [[]], ["build-1".toList]⟩ ∧
    ParseVersion ("1".toList ++ '.' :: "2".toList ++ '.' ::
        ("3".toList ++ optSuffix '-' (some "beta.4".toList)
          ++ optSuffix '+' (some "20150505.1".toList))) =
      .ok ⟨1, 2, 3, ["beta".toList, "4".toList], ["20150505".toList, "1".toList]⟩ ∧
    "1".toList ++ '.' :: "2".toList ++ '.' ::
        ("3".toList ++ optSuffix '-' (some "beta.4".toList)
          ++ optSuffix '+' (some "20150505.1".toList)) = "1.2.3-beta.4+20150505.1".toList :=
  ⟨(C6_field_extraction "1".toList "0".toList "0".toList none (some "build-1".toList)
      (by decide) (by decide) (by decide) (by decide) (by simp) _).2 (by decide),
   (C6_field_extraction "1".toList "2".toList "3".toList (some "beta.4".toList)
      (some "20150505.1".toList) (by decide) (by decide) (by decide) (by decide)
      (by intro x hx; cases hx; decide) _).2 (by decide),
   by decide⟩

/-- C7 (parsed numeric fields are non-negative), evaluated at `-1.0.0` and
`1.-2.0`: `strconv.ParseInt` accepts a sign, so both texts parse, with `Major`
equal to `-1` in the first and `Minor` equal to `-2` in the second. -/
theorem C7_negative_fields_accepted :
    ParseVersion "-1.0.0".toList = .ok ⟨-1, 0, 0, [[]], [[]]⟩ ∧
      ParseVersion "1.-2.0".toList = .ok ⟨1, -2, 0, [[]], [[]]⟩ ∧
      ¬ ∀ v, ParseVersion "-1.0.0".toList = .ok v → 0 ≤ v.Major ∧ 0 ≤ v.Minor ∧ 0 ≤ v.Patch := by
  refine ⟨by decide, by decide, ?_⟩
  intro h
  have := (h ⟨-1, 0, 0, [[]], [[]]⟩ (by decide)).1
  exact absurd this (by decide)

/-- C8: leading-zero rejection. Whenever one of the three numeric segments of
a text (the text before the first dot, the text between the first two dots,
the text after the second dot up to the first plus or minus sign) begins with
a zero digit and is longer than one character, `ParseVersion` returns
`ErrInvalidFormat`. -/
theorem C8_leading_zero_rejected (s : Str)
    (h : ∃ seg ∈ numericSegments s, zeroLed seg) :
    ParseVersion s = .error Error.ErrInvalidFormat := by
  rw [ParseVersion_error_iff, ParseVersion_isOk_iff]
  rintro ⟨-, -, hall⟩
  obtain ⟨seg, hseg, hz⟩ := h
  have h1 := (hall seg hseg).1
  have h2 := (zeroLed_iff seg).1 hz
  rw [h1] at h2
  cases h2

/-- C8 at the texts the claim names: `1.02.0` and `1.02.0-beta4` have the
zero-led minor segment `02` and fail with `ErrInvalidFormat`, while `1.0.0`
parses. -/
theorem C8_leading_zero_rejected_witness :
    (∃ seg ∈ numericSegments "1.02.0".toList, zeroLed seg) ∧
      ParseVersion "1.02.0".toList = .error Error.ErrInvalidFormat ∧
      ParseVersion "1.02.0-beta4".toList = .error Error.ErrInvalidFormat ∧
      ParseVersion "1.0.0".toList = .ok ⟨1, 0, 0, [[]], [[]]⟩ :=
  ⟨⟨"02".toList, by decide, ['2'], by decide, rfl⟩,
   C8_leading_zero_rejected "1.02.0".toList ⟨"02".toList, by decide, ['2'], by decide, rfl⟩,
   C8_leading_zero_rejected "1.02.0-beta4".toList
     ⟨"02".toList, by decide, ['2'], by decide, rfl⟩,
   by decide⟩

/-- C9: the exact failure condition of `ParseVersion`. It returns
`ErrInvalidFormat` (and no version) exactly when the text splits on dots into
fewer than three parts, or one of the three numeric segments begins with a
zero digit and is longer than one character, or one of the three numeric
segments is not a base-ten integer numeral in the signed 64-bit range; in
every other case it returns a version and no error. -/
theorem C9_exact_failure_condition (s : Str) :
    (ParseVersion s = .error Error.ErrInvalidFormat ↔
      ((Split s '.').length < 3 ∨
        (∃ seg ∈ numericSegments s, zeroLed seg) ∨
        (∃ seg ∈ numericSegments s, ¬ ∃ z, int64Numeral seg z))) ∧
    (ParseVersion s ≠ .error Error.ErrInvalidFormat → ∃ v, ParseVersion s = .ok v) := by
  have key : (¬ ∃ v, ParseVersion s = .ok v) ↔
      ((Split s '.').length < 3 ∨
        (∃ seg ∈ numericSegments s, zeroLed seg) ∨
        (∃ seg ∈ numericSegments s, ¬ ∃ z, int64Numeral seg z)) := by
    rw [ParseVersion_isOk_iff, Split_length_lt_three]
    constructor
    · intro h
      by_contra hc
      push_neg at hc
      obtain ⟨h1, h2, h3⟩ := hc
      apply h
      refine ⟨(h1).1, (h1).2, ?_⟩
      intro seg hseg
      refine ⟨?_, ?_⟩
      · cases hz : hasLeadingZero seg with
        | false => rfl
        | true => exact absurd ((zeroLed_iff seg).2 hz) (h2 seg hseg)
      · obtain ⟨z, hz⟩ := h3 seg hseg
        exact ⟨z, (ParseInt_eq_some seg z).2 hz⟩
    · rintro (h | ⟨seg, hseg, hz⟩ | ⟨seg, hseg, hz⟩) ⟨h1, h2, hall⟩
      · exact h ⟨h1, h2⟩
      · have := (hall seg hseg).1
        rw [(zeroLed_iff seg).1 hz] at this
        cases this
      · obtain ⟨z, hz2⟩ := (hall seg hseg).2
        exact hz ⟨z, (ParseInt_eq_some seg z).1 hz2⟩
  refine ⟨by rw [ParseVersion_error_iff, key], ?_⟩
  intro h
  by_contra hc
  exact h ((ParseVersion_error_iff s).2 hc)

/-- C10 (`ParseVersion` accepts only SemVer), evaluated at four texts that the
SemVer grammar rejects and `ParseVersion` accepts: `1.0.0+!` (a metadata
character outside the identifier alphabet), `1.0.0-` (an empty pre-release),
`-1.0.0` and `+1.0.0` (a signed numeral). The grammar does accept the
well-formed `1.2.3-beta.4+20150505.1`. -/
theorem C10_non_semver_accepted :
    isSemVer "1.0.0+!".toList = false ∧
      ParseVersion "1.0.0+!".toList = .ok ⟨1, 0, 0, [[]], ["!".toList]⟩ ∧
    isSemVer "1.0.0-".toList = false ∧
      ParseVersion "1.0.0-".toList = .ok ⟨1, 0, 0, [[]], [[]]⟩ ∧
    isSemVer "-1.0.0".toList = false ∧
      ParseVersion "-1.0.0".toList = .ok ⟨-1, 0, 0, [[]], [[]]⟩ ∧
    isSemVer "+1.0.0".toList = false ∧
      ParseVersion "+1.0.0".toList = .ok ⟨1, 0, 0, [[]], [[]]⟩ ∧
    isSemVer "1.2.3-beta.4+20150505.1".toList = true := by
  decide

/-- C11: `Compare` equals its reference definition and takes its values in
`-1`, `0`, `1`. The first differing field among `Major`, `Minor`, `Patch`
decides; with equal fields the result is `0` for two empty pre-release
sequences, `1` when only the first is empty, `-1` when only the second is
empty, and otherwise the comparison at the first common position that differs
(integers when both identifiers denote integers, text otherwise), the longer
sequence being greater when no common position differs. The reference is
written over the text itself (`numeralValue`, the lexicographic order), and
the code is pinned at the versions of the package's own tests: `Minor` decides
before `Patch`, a release is above its pre-release, `alpha.9` is below
`alpha.10` as integers, `alpha.beta` is below `beta` as text, `007` equals `7`,
and the longer `beta.9.1` is above `beta.9`. -/
theorem C11_compare_equals_reference (a b : Version) :
    Compare a b = CompareRef a b ∧
      (Compare a b = -1 ∨ Compare a b = 0 ∨ Compare a b = 1) ∧
      Compare ⟨1, 2, 3, [], []⟩ ⟨1, 3, 2, [], []⟩ = -1 ∧
      Compare ⟨2, 3, 5, [], []⟩ ⟨2, 3, 5, ["beta".toList], []⟩ = 1 ∧
      Compare ⟨2, 3, 5, ["beta".toList], []⟩ ⟨2, 3, 5, [], []⟩ = -1 ∧
      Compare ⟨1, 0, 0, ["alpha".toList, "9".toList], []⟩
        ⟨1, 0, 0, ["alpha".toList, "10".toList], []⟩ = -1 ∧
      Compare ⟨1, 0, 0, ["alpha".toList, "beta".toList], []⟩
        ⟨1, 0, 0, ["beta".toList], []⟩ = -1 ∧
      Compare ⟨1, 0, 0, ["007".toList], []⟩ ⟨1, 0, 0, ["7".toList], []⟩ = 0 ∧
      Compare ⟨2, 3, 5, ["beta".toList, "9".toList, "1".toList], []⟩
        ⟨2, 3, 5, ["beta".toList, "9".toList], []⟩ = 1 := by
  refine ⟨?_, Compare_range a b, by decide, by decide, by decide, by decide, by decide,
    by decide, by decide⟩
  unfold Compare CompareRef
  rw [compareLoop_eq_find, comparePreRelease_eq_ref]

/-- C12: numeric pre-release identifiers are ordered by value. For versions
with equal `Major`, `Minor`, `Patch` whose pre-release sequences share the
identifiers before some position and whose identifiers at that position both
parse as integers `n1` and `n2`, `Compare` returns `-1` when `n1 < n2` and `1`
when `n1 > n2`, whatever follows; when `n1 = n2` the position does not decide
and the comparison continues with what follows, so `007` and `7` compare as
equal. -/
theorem C12_numeric_identifiers_by_value (a b : Version) (pfx ta tb : List Str) (x y : Str)
    (n1 n2 : Int) (hM : a.Major = b.Major) (hm : a.Minor = b.Minor) (hp : a.Patch = b.Patch)
    (ha : a.PreRelease = pfx ++ x :: ta) (hb : b.PreRelease = pfx ++ y :: tb)
    (hx : Atoi x = some n1) (hy : Atoi y = some n2) :
    (n1 < n2 → Compare a b = -1) ∧ (n1 > n2 → Compare a b = 1) ∧
      (n1 = n2 → preReleaseLoop a.PreRelease b.PreRelease = preReleaseLoop ta tb) := by
  have hl : preReleaseLoop a.PreRelease b.PreRelease =
      (if n1 > n2 then some 1 else if n1 < n2 then some (-1) else preReleaseLoop ta tb) := by
    rw [ha, hb, preReleaseLoop_append_same]
    simp only [preReleaseLoop, hx, hy]
  have hc : Compare a b = comparePreRelease a b := by
    unfold Compare
    rw [compareLoop_three]
    simp [hM, hm, hp]
  have ha0 : ¬ a.PreRelease.length = 0 := by rw [ha]; simp
  have hb0 : ¬ b.PreRelease.length = 0 := by rw [hb]; simp
  refine ⟨?_, ?_, ?_⟩
  · intro h
    have h2 : ¬ n1 > n2 := not_lt.2 (le_of_lt h)
    rw [hc]
    unfold comparePreRelease
    simp only [hl, ha0, hb0, h, h2, false_and, and_false, if_false, if_true]
  · intro h
    rw [hc]
    unfold comparePreRelease
    simp only [hl, ha0, hb0, h, false_and, and_false, if_false, if_true]
  · intro h
    subst h
    simp [hl]

/-- C12 at `1.0.0-alpha.9` and `1.0.0-alpha.10`: the identifiers `9` and `10`
parse as integers, so the first version is below the second; and the
pre-releases `007` and `7` compare as equal. -/
theorem C12_numeric_identifiers_by_value_witness :
    Atoi "9".toList = some 9 ∧ Atoi "10".toList = some 10 ∧
      Compare ⟨1, 0, 0, ["alpha".toList, "9".toList], []⟩
        ⟨1, 0, 0, ["alpha".toList, "10".toList], []⟩ = -1 ∧
      Compare ⟨1, 0, 0, ["alpha".toList, "10".toList], []⟩
        ⟨1, 0, 0, ["alpha".toList, "9".toList], []⟩ = 1 ∧
      Compare ⟨1, 0, 0, ["007".toList], []⟩ ⟨1, 0, 0, ["7".toList], []⟩ = 0 :=
  ⟨by decide, by decide,
   (C12_numeric_identifiers_by_value ⟨1, 0, 0, ["alpha".toList, "9".toList], []⟩
      ⟨1, 0, 0, ["alpha".toList, "10".toList], []⟩ ["alpha".toList] [] [] "9".toList
      "10".toList 9 10 rfl rfl rfl rfl rfl (by decide) (by decide)).1 (by decide),
   (C12_numeric_identifiers_by_value ⟨1, 0, 0, ["alpha".toList, "10".toList], []⟩
      ⟨1, 0, 0, ["alpha".toList, "9".toList], []⟩ ["alpha".toList] [] [] "10".toList
      "9".toList 10 9 rfl rfl rfl rfl rfl (by decide) (by decide)).2.1 (by decide),
   by decide⟩

/-- C13: `String` equals its reference rendering. The decimal `Major`,
`Minor`, `Patch` joined by dots, followed by the hyphen and the pre-release
identifiers joined by dots exactly when that joined text is non-empty and made
only of ASCII letters, digits and hyphens, followed by the plus sign and the
metadata under the same condition; a suffix with any other character is
omitted, as for the metadata `+-*/` of the package's own test. -/
theorem C13_string_equals_reference (v : Version) :
    String v = StringRef v ∧
      String ⟨2, 3, 5, ["beta7".toList], ["+-*/".toList]⟩ = "2.3.5-beta7".toList :=
  ⟨String_eq_ref v, by decide⟩

/-- C14: `Match` follows the operator table. It is true exactly when the
operator is `=` and the constraint version equals `v`, or `>` and `v` is
greater, or `<` and `v` is less, or `>=` and `v` is greater or equal, or `<=`
and `v` is less or equal; for every other operator it is false. -/
theorem C14_match_operator_table (c : Constraint) (v : Version) :
    (Match c v = true ↔
      (c.Operator = "=".toList ∧ Equals c.Version v = true) ∨
      (c.Operator = ">".toList ∧ GreaterThan v c.Version = true) ∨
      (c.Operator = "<".toList ∧ LessThan v c.Version = true) ∨
      (c.Operator = ">=".toList ∧ (GreaterThan v c.Version = true ∨ Equals v c.Version = true)) ∨
      (c.Operator = "<=".toList ∧ (LessThan v c.Version = true ∨ Equals v c.Version = true))) ∧
    (c.Operator ∉ validOperators → Match c v = false) := by
  have e1 : "=".toList = ['='] := rfl
  have e2 : ">".toList = ['>'] := rfl
  have e3 : "<".toList = ['<'] := rfl
  have e4 : ">=".toList = ['>', '='] := rfl
  have e5 : "<=".toList = ['<', '='] := rfl
  rw [e1, e2, e3, e4, e5, Equals_comm c.Version v]
  unfold Match validOperators
  constructor
  · by_cases h1 : c.Operator = ['=']
    · simp [h1]
    · by_cases h2 : c.Operator = ['>']
      · simp [h2]
      · by_cases h3 : c.Operator = ['<']
        · simp [h3]
        · by_cases h4 : c.Operator = ['>', '=']
          · simp [h4]
          · by_cases h5 : c.Operator = ['<', '=']
            · simp [h5]
            · simp [h1, h2, h3, h4, h5]
  · intro h
    simp only [List.mem_cons, List.mem_singleton, List.not_mem_nil, or_false, not_or] at h
    simp [h.1, h.2.1, h.2.2.1, h.2.2.2.1, h.2.2.2.2]

/-- C14 at the operator `<>` of the package's own test: it is none of the five
operators and matches nothing. -/
theorem C14_match_operator_table_witness :
    "<>".toList ∉ validOperators ∧
      Match ⟨"<>".toList, ⟨1, 2, 3, ["beta4".toList], []⟩⟩ ⟨1, 3, 2, ["beta4".toList], []⟩
        = false :=
  ⟨by decide,
   (C14_match_operator_table ⟨"<>".toList, ⟨1, 2, 3, ["beta4".toList], []⟩⟩
      ⟨1, 3, 2, ["beta4".toList], []⟩).2 (by decide)⟩

/-- C15: the exact `ErrInvalidOperator` condition. `ParseConstraint` returns
`ErrInvalidOperator` exactly when the maximal leading run of characters drawn
from `=`, `>`, `<` is not one of the five operators, whatever the rest of the
text is. -/
theorem C15_invalid_operator_condition (s : Str) :
    ParseConstraint s = .error Error.ErrInvalidOperator ↔
      leadingOperatorRun s ∉ validOperators := by
  rw [ParseConstraint_eq]
  by_cases h : leadingOperatorRun s ∈ validOperators
  · simp only [h, if_true, not_true_eq_false, iff_false]
    cases hp : ParseVersion (s.drop (leadingOperatorRun s).length) with
    | error e =>
      have := ParseVersion_error _ e hp
      subst this
      simp
    | ok v => simp
  · simp [h]

/-- C16: `ParseConstraint` delegates to `ParseVersion`. For each of the five
operators `op` and every text `r` that does not begin with `=`, `>` or `<`,
parsing `op` followed by `r` gives the constraint with operator `op` and the
version parsed from `r` when that succeeds, and `ErrInvalidFormat` when it
fails. -/
theorem C16_constraint_delegates (op r : Str) (hop : op ∈ validOperators)
    (hr : ∀ c, r.head? = some c → c ≠ '=' ∧ c ≠ '>' ∧ c ≠ '<') :
    ParseConstraint (op ++ r) =
      match ParseVersion r with
      | .ok v => .ok { Operator := op, Version := v }
      | .error _ => .error Error.ErrInvalidFormat := by
  rw [ParseConstraint_eq, leadingOperatorRun_append hop hr]
  simp only [hop, if_true, List.drop_left]
  cases hp : ParseVersion r with
  | error e =>
    have := ParseVersion_error _ e hp
    subst this
    rfl
  | ok v => rfl

/-- C16 at the texts of the package's own tests: `>=1.2.3-beta4` gives the
operator `>=` with the version `1.2.3` and pre-release `beta4`, and
`>=1.2-beta4` fails with `ErrInvalidFormat`. -/
theorem C16_constraint_delegates_witness :
    ">=".toList ∈ validOperators ∧
      ParseConstraint (">=".toList ++ "1.2.3-beta4".toList) =
        .ok ⟨">=".toList, ⟨1, 2, 3, ["beta4".toList], [[]]⟩⟩ ∧
      ParseConstraint (">=".toList ++ "1.2-beta4".toList) = .error Error.ErrInvalidFormat :=
  ⟨by decide,
   (C16_constraint_delegates ">=".toList "1.2.3-beta4".toList (by decide)
      (by intro c hc; cases hc; decide)).trans (by decide),
   (C16_constraint_delegates ">=".toList "1.2-beta4".toList (by decide)
      (by intro c hc; cases hc; decide)).trans (by decide)⟩

/-- C17 (the sequence holding the empty text is equivalent to the empty
sequence for ordering), evaluated at the parsed `1.0.0` against the directly
constructed version `1.0.0` with empty sequences: the parsed version carries
the one-element pre-release sequence and `Compare` returns `-1`, while
replacing that sequence by the empty one gives `0`. -/
theorem C17_empty_text_sequence_not_equivalent :
    ParseVersion "1.0.0".toList = .ok ⟨1, 0, 0, [[]], [[]]⟩ ∧
      Compare ⟨1, 0, 0, [[]], [[]]⟩ ⟨1, 0, 0, [], []⟩ = -1 ∧
      Compare ⟨1, 0, 0, [], [[]]⟩ ⟨1, 0, 0, [], []⟩ = 0 ∧
      Equals ⟨1, 0, 0, [[]], [[]]⟩ ⟨1, 0, 0, [], []⟩ = false := by
  decide

/-- C18: rendering is a fixed point of parse-then-render. For every version
whose `Major`, `Minor`, `Patch` are non-negative `int64` values, with any
`PreRelease` and `Metadata`, `ParseVersion` succeeds on `String` of the version
and `String` of the parsed version is the same text. -/
theorem C18_render_parse_render_fixed (v : Version)
    (hM : 0 ≤ v.Major ∧ v.Major < 2 ^ 63) (hm : 0 ≤ v.Minor ∧ v.Minor < 2 ^ 63)
    (hp : 0 ≤ v.Patch ∧ v.Patch < 2 ^ 63) :
    ∃ w, ParseVersion (String v) = .ok w ∧ String w = String v := by
  obtain ⟨a1, a2, a3, -, -⟩ := formatInt_parse hM.1 hM.2
  obtain ⟨b1, b2, b3, -, -⟩ := formatInt_parse hm.1 hm.2
  obtain ⟨c1, c2, -, c4, c5⟩ := formatInt_parse hp.1 hp.2
  obtain ⟨opre, epre, hpre⟩ := strSuffix_as_opt v.PreRelease '-'
  obtain ⟨ometa, emeta, hmeta⟩ := strSuffix_as_opt v.Metadata '+'
  have hs : String v = formatInt v.Major ++ '.' :: formatInt v.Minor ++ '.' ::
      (formatInt v.Patch ++ optSuffix '-' opre ++ optSuffix '+' ometa) := by
    unfold String strPreRelease strMetadata
    simp only [epre, emeta, List.append_assoc, List.singleton_append, List.cons_append,
      List.nil_append]
  have hplus : ∀ x, opre = some x → '+' ∉ x :=
    fun x hx => isAlphaNumeric_not_mem (hpre x hx).2 (by decide)
  refine ⟨⟨v.Major, v.Minor, v.Patch, optField opre, optField ometa⟩, ?_, ?_⟩
  · rw [hs]
    exact ParseVersion_of_parts _ _ _ opre ometa a3 b3 c4 c5 hplus _ _ _ a2 b2 c2 a1 b1 c1
  · rw [hs]
    unfold String strPreRelease strMetadata
    simp only [strSuffix_optField opre '-' hpre, strSuffix_optField ometa '+' hmeta,
      List.append_assoc, List.singleton_append, List.cons_append, List.nil_append]

/-- C18 at the version `2.3.5` with pre-release `beta7` and the metadata `+-*/`
that `String` suppresses: the rendering `2.3.5-beta7` parses and renders to
itself. -/
theorem C18_render_parse_render_fixed_witness :
    String ⟨2, 3, 5, ["beta7".toList], ["+-*/".toList]⟩ = "2.3.5-beta7".toList ∧
      ∃ w, ParseVersion (String ⟨2, 3, 5, ["beta7".toList], ["+-*/".toList]⟩) = .ok w ∧
        String w = String ⟨2, 3, 5, ["beta7".toList], ["+-*/".toList]⟩ :=
  ⟨by decide,
   C18_render_parse_render_fixed ⟨2, 3, 5, ["beta7".toList], ["+-*/".toList]⟩
     ⟨by decide, by decide⟩ ⟨by decide, by decide⟩ ⟨by decide, by decide⟩⟩

/-- C19: a multi-identifier suffix is never rendered. When `PreRelease` has two
or more elements `String` equals the rendering of the same version with an
empty `PreRelease`, and likewise for `Metadata`. -/
theorem C19_multi_identifier_suffix_dropped (v : Version) :
    (2 ≤ v.PreRelease.length → String v = String { v with PreRelease := [] }) ∧
      (2 ≤ v.Metadata.length → String v = String { v with Metadata := [] }) := by
  constructor
  · intro h
    have e : strPreRelease v = [] := strSuffix_of_two_le v.PreRelease h '-'
    have e2 : strPreRelease { v with PreRelease := [] } = [] := rfl
    have e3 : strMetadata { v with PreRelease := [] } = strMetadata v := rfl
    unfold String
    rw [e, e2, e3]
  · intro h
    have e : strMetadata v = [] := strSuffix_of_two_le v.Metadata h '+'
    have e2 : strMetadata { v with Metadata := [] } = [] := rfl
    have e3 : strPreRelease { v with Metadata := [] } = strPreRelease v := rfl
    unfold String
    rw [e, e2, e3]

/-- C19 at the version `1.2.3` with pre-release `beta`, `4` and metadata
`20150505`, `1`: both sequences have two elements and the rendering is
`1.2.3`. -/
theorem C19_multi_identifier_suffix_dropped_witness :
    String ⟨1, 2, 3, ["beta".toList, "4".toList], ["m".toList]⟩ =
        String ⟨1, 2, 3, [], ["m".toList]⟩ ∧
      String ⟨1, 2, 3, ["beta".toList], ["20150505".toList, "1".toList]⟩ =
        String ⟨1, 2, 3, ["beta".toList], []⟩ ∧
      String ⟨1, 2, 3, ["beta".toList, "4".toList], ["20150505".toList, "1".toList]⟩ =
        "1.2.3".toList :=
  ⟨(C19_multi_identifier_suffix_dropped
      ⟨1, 2, 3, ["beta".toList, "4".toList], ["m".toList]⟩).1 (by decide),
   (C19_multi_identifier_suffix_dropped
      ⟨1, 2, 3, ["beta".toList], ["20150505".toList, "1".toList]⟩).2 (by decide),
   by decide⟩

/-- C20: inclusive and strict operators are complementary. `>=` matches exactly
when `<` does not, `<=` matches exactly when `>` does not, and exactly one of
`Equals`, `GreaterThan`, `LessThan` holds for every pair of versions. -/
theorem C20_inclusive_strict_complementary (x v : Version) :
    Match ⟨">=".toList, x⟩ v = !Match ⟨"<".toList, x⟩ v ∧
      Match ⟨"<=".toList, x⟩ v = !Match ⟨">".toList, x⟩ v ∧
      ((Equals v x = true ∧ GreaterThan v x = false ∧ LessThan v x = false) ∨
        (Equals v x = false ∧ GreaterThan v x = true ∧ LessThan v x = false) ∨
        (Equals v x = false ∧ GreaterThan v x = false ∧ LessThan v x = true)) := by
  have e2 : ">".toList = ['>'] := rfl
  have e3 : "<".toList = ['<'] := rfl
  have e4 : ">=".toList = ['>', '='] := rfl
  have e5 : "<=".toList = ['<', '='] := rfl
  rw [e2, e3, e4, e5]
  unfold Match Equals GreaterThan LessThan
  rcases Compare_range v x with h | h | h <;> simp [h]

end Semver
